import Mathlib

/-!
Verification development for the digraphx-rs library.

The Rust sources are shallowly embedded:

* `src/src/neg_cycle.rs` — `NegCycleFinder` with `relax`, `find_cycle`,
  `cycle_list` and `howard` (Howard's negative-cycle detection).
* `src/src/parametric.rs` — `MaxParametricSolver::run` over a
  `ParametricAPI` policy.
* `src/src/lib.rs` — `bellman_ford`, `find_negative_cycle`,
  `bellman_ford_initialize_relax` (petgraph-style Bellman–Ford).
* `src/neg_cycle_ai.rs` — the `is_negative` consistency check.

A directed graph is a node count `n` together with a list of edges
(the list order models petgraph's iteration order: all out-edges of
node 0, then of node 1, and so on).  Edge weights live in `ℚ`, a
faithful instantiation of the generic `Domain`/`FloatMeasure` bounds
(the crate's tests use `Ratio<i32>`).  Rust loops become fuel-indexed
structural recursions; a `none` result means the fuel ran out (never
reachable with the fuel the wrappers pass), and panics are modelled as
explicit outcomes.
-/

namespace DigraphX

/-- An edge of a directed graph: source node, target node, stored weight
(the `EdgeReference`'s weight).  Algorithms access weights through an
arbitrary `get_weight : Edge → ℚ` function, exactly as in the source. -/
structure Edge where
  src : Nat
  tgt : Nat
  weight : ℚ
deriving DecidableEq, Repr

/-- A directed graph: a number of nodes (indexed `0 .. n-1`) and the list
of edges in iteration order. -/
structure Graph where
  n : Nat
  edges : List Edge
deriving DecidableEq, Repr

/-- Well-formedness: every edge joins nodes that exist. -/
def Graph.Wf (g : Graph) : Prop :=
  ∀ e ∈ g.edges, e.src < g.n ∧ e.tgt < g.n

instance (g : Graph) : Decidable g.Wf := by
  unfold Graph.Wf; infer_instance

/-- Read a distance array entry (`dist[i]` in the source; the default is
irrelevant because all accesses are in bounds for well-formed inputs). -/
def dget (d : List ℚ) (i : Nat) : ℚ :=
  d.getD i 0

/-- Total weight of a list of edges under a weight function. -/
def wsum (w : Edge → ℚ) (c : List Edge) : ℚ :=
  (c.map w).sum

/-- Walks: `IsWalk g u v W` says the edge list `W` is a walk in `g` from node `u` to
node `v` (consecutive edges chained head to tail). -/
def IsWalk (g : Graph) : Nat → Nat → List Edge → Prop
  | u, v, [] => u = v
  | u, v, e :: W => e ∈ g.edges ∧ e.src = u ∧ IsWalk g e.tgt v W

/-- A strictly negative closed walk exists for weight function `w`;
this is the "graph has a cycle of strictly negative total weight"
property of the specification. -/
def hasNegCycle (g : Graph) (w : Edge → ℚ) : Prop :=
  ∃ u c, c ≠ [] ∧ IsWalk g u u c ∧ wsum w c < 0

/-- Node `v` is reachable from node `u` in `g`. -/
def Reach (g : Graph) (u v : Nat) : Prop :=
  ∃ W, IsWalk g u v W

/-! ### The `NegCycleFinder` state and its `relax` pass (src/src/neg_cycle.rs) -/
/-- The mutable state of a `NegCycleFinder` run: the caller's distance
array and the predecessor map `pred : node ↦ (predecessor node, edge)`. -/
structure NCF where
  dist : List ℚ
  pred : Nat → Option (Nat × Edge)

/-- One step of `relax`: process a single edge `(utx = e.src) → (vtx =
e.tgt)`.  If `dist[vtx] > dist[utx] + weight` the distance is lowered,
`pred[vtx] = (utx, edge)` is recorded, and the changed flag is set. -/
def relaxEdge (w : Edge → ℚ) (p : NCF × Bool) (e : Edge) : NCF × Bool :=
  if dget p.1.dist e.src + w e < dget p.1.dist e.tgt then
    (⟨p.1.dist.set e.tgt (dget p.1.dist e.src + w e),
      fun v => if v = e.tgt then some (e.src, e) else p.1.pred v⟩, true)
  else p

/-- The pass `NegCycleFinder::relax`: one full pass over every node's out-edges
(the edge list is ordered by source node), returning the updated state
and whether any distance changed. -/
def relax (g : Graph) (w : Edge → ℚ) (s : NCF) : NCF × Bool :=
  g.edges.foldl (relaxEdge w) (s, false)

/-! ### Invariants of the relaxation state -/
/-- Predecessor cycles: `c` is a cycle of the predecessor map, listed in predecessor order
(the order `cycle_list` produces): every edge of `c` is the recorded
predecessor arrow of its target, and read backwards (`c.reverse`) the
list is a closed walk of the graph. -/
def PredCycle (g : Graph) (s : NCF) (c : List Edge) : Prop :=
  c ≠ [] ∧ (∀ e ∈ c, s.pred e.tgt = some (e.src, e)) ∧ ∃ z, IsWalk g z z c.reverse

/-- The inductive invariant of a `NegCycleFinder` run started from the
distance array `d0` with an empty predecessor map. -/
structure Good (g : Graph) (w : Edge → ℚ) (d0 : List ℚ) (s : NCF) : Prop where
  len : s.dist.length = g.n
  inv : ∀ v u e, s.pred v = some (u, e) →
    e ∈ g.edges ∧ e.src = u ∧ e.tgt = v ∧ dget s.dist u + w e ≤ dget s.dist v
  root : ∀ v, s.pred v = none → dget s.dist v = dget d0 v
  ach : ∀ v, ∃ u W, IsWalk g u v W ∧ dget s.dist v = dget d0 u + wsum w W
  neg : ∀ c, PredCycle g s c → wsum w c < 0

/-! ### `find_cycle` (src/src/neg_cycle.rs lines 52–75) -/
/-- Lookup in the association-list model of the `visited` hash map. -/
def vlookup : List (Nat × Nat) → Nat → Option Nat
  | [], _ => none
  | (k, r) :: t, x => if x = k then some r else vlookup t x

/-- Iterate a functional predecessor map `k` steps. -/
def piIter (π : Nat → Option Nat) : Nat → Nat → Option Nat
  | 0, v => some v
  | k + 1, v =>
    match π v with
    | none => none
    | some u => piIter π k u

/-- Node `v` lies on a cycle of the functional map `π`. -/
def OnCycle (π : Nat → Option Nat) (v : Nat) : Prop :=
  ∃ k, 0 < k ∧ piIter π k v = some v

/-- The inner `while` loop of `find_cycle`: walk the predecessor chain
from `utx`, tagging every visited node with the pass root `vtx`.  Returns
the updated visited map and the found cycle node, if any. -/
def fcInner (π : Nat → Option Nat) (vtx : Nat) :
    List (Nat × Nat) → Nat → Nat → List (Nat × Nat) × Option Nat
  | vis, _, 0 => (vis, none)
  | vis, utx, fuel + 1 =>
    if (vlookup vis utx).isSome then (vis, none)
    else
      let vis' := (utx, vtx) :: vis
      match π utx with
      | none => (vis', none)
      | some nxt =>
        match vlookup vis' nxt with
        | some r => if r = vtx then (vis', some nxt) else (vis', none)
        | none => fcInner π vtx vis' nxt fuel

/-- The outer loop of `find_cycle` over all node identifiers. -/
def fcOuter (π : Nat → Option Nat) :
    List Nat → List (Nat × Nat) → Nat → Option Nat
  | [], _, _ => none
  | v :: rest, vis, fuel =>
    if (vlookup vis v).isSome then fcOuter π rest vis fuel
    else
      match fcInner π v vis v fuel with
      | (_, some u) => some u
      | (vis', none) => fcOuter π rest vis' fuel

/-- Projection of the predecessor map to its node component. -/
def predPi (s : NCF) : Nat → Option Nat :=
  fun v => (s.pred v).map Prod.fst

/-- The scan `NegCycleFinder::find_cycle`: scan all nodes, walking predecessor
chains with per-pass root tags, and return a node on a predecessor-map
cycle if one exists. -/
def find_cycle (n : Nat) (s : NCF) : Option Nat :=
  fcOuter (predPi s) (List.range n) [] (n + 1)

/-- A reversed `π`-chain: `[x_m, …, x_0]` with `π x_i = some x_{i+1}`. -/
def RPath (π : Nat → Option Nat) : List Nat → Prop
  | [] => True
  | [_] => True
  | a :: b :: t => π b = some a ∧ RPath π (b :: t)

/-- Tag sanity of the visited map: the tag of any entry is itself a
visited key (each pass tags its own root first). -/
def TagsOk (vis : List (Nat × Nat)) : Prop :=
  ∀ x t, vlookup vis x = some t → (vlookup vis t).isSome

/-- Invariant of the inner walk: nodes tagged with the current root form
a reversed `π`-chain from the root `vtx` whose head steps to the current
node `utx`. -/
def InnerInv (π : Nat → Option Nat) (vtx : Nat) (vis : List (Nat × Nat))
    (rp : List Nat) (utx : Nat) : Prop :=
  (∀ x, vlookup vis x = some vtx ↔ x ∈ rp) ∧
  RPath π rp ∧
  ((rp = [] ∧ utx = vtx) ∨ (rp ≠ [] ∧ rp.getLast? = some vtx ∧ π rp.headI = some utx))

/-! ### `find_cycle` completeness -/
/-- Number of nodes of `l` not yet in the visited map. -/
def ucount (vis : List (Nat × Nat)) (l : List Nat) : Nat :=
  (l.filter fun x => (vlookup vis x).isNone).length

/-- The first `k` iterates of `π` from `v` (used to package a cycle of the
functional predecessor map as a node list). -/
def piList (π : Nat → Option Nat) (v k : Nat) : List Nat :=
  (List.range k).map fun i => (piIter π i v).getD v

/-! ### `cycle_list` (src/src/neg_cycle.rs lines 122–134) -/
/-- The loop of `cycle_list`: starting from `handle`, follow `pred`
backwards collecting the traversed edges until `handle` recurs. -/
def cycle_list_aux (pred : Nat → Option (Nat × Edge)) (handle : Nat) :
    Nat → Nat → List Edge
  | _, 0 => []
  | vtx, fuel + 1 =>
    match pred vtx with
    | none => []
    | some (utx, e) =>
      if utx = handle then [e] else e :: cycle_list_aux pred handle utx fuel

/-- The loop `NegCycleFinder::cycle_list` (the source's loop always terminates on a
predecessor cycle; `n + 1` fuel is enough because the cycle is simple). -/
def cycle_list (n : Nat) (s : NCF) (handle : Nat) : List Edge :=
  cycle_list_aux s.pred handle handle (n + 1)

/-! ### Pass iteration and termination machinery for `howard` -/
/-- Iterated passes: `k` relaxation passes in sequence. -/
def relaxIter (g : Graph) (w : Edge → ℚ) : Nat → NCF → NCF
  | 0, s => s
  | k + 1, s => relaxIter g w k (relax g w s).1

/-- The node sequence of a walk starting at `u`. -/
def wnodes (u : Nat) (W : List Edge) : List Nat :=
  u :: W.map (·.tgt)

/-! ### `howard` (src/src/neg_cycle.rs lines 171–187) -/
/-- The loop of `howard`, with fuel counting relaxation passes.  The first
component is `none` when the fuel runs out (never happens for the fuel the
theorems use), `some none` for the source's `None` ("no cycle"), and
`some (some c)` for `Some(cycle)`. -/
def howardF (g : Graph) (w : Edge → ℚ) : Nat → NCF → Option (Option (List Edge)) × NCF
  | 0, s => (none, s)
  | fuel + 1, s =>
    if (relax g w s).2 then
      match find_cycle g.n (relax g w s).1 with
      | some vtx =>
        (some (some (cycle_list g.n (relax g w s).1 vtx)), (relax g w s).1)
      | none => howardF g w fuel (relax g w s).1
    else (some none, (relax g w s).1)

/-- The driver `NegCycleFinder::howard`: clear the predecessor map, then alternate
relaxation passes with incremental cycle detection. -/
def howard (g : Graph) (w : Edge → ℚ) (dist : List ℚ) (fuel : Nat) :
    Option (Option (List Edge)) × NCF :=
  howardF g w fuel ⟨dist, fun _ => none⟩

/-! ### `howard` fires whenever a negative cycle exists -/
/-- Pumping: `m` copies of an edge list, used to pump a negative cycle. -/
def nrep : Nat → List Edge → List Edge
  | 0, _ => []
  | m + 1, c => c ++ nrep m c

/-! ### `is_negative` (src/neg_cycle_ai.rs lines 109–128) -/
/-- The do-while loop of `is_negative`: walk the predecessor cycle from
`handle` once and report whether some traversed edge still violates the
relaxation inequality `dist[vtx] > dist[utx] + w(edge)`. -/
def is_negative_aux (pred : Nat → Option (Nat × Edge)) (dist : List ℚ)
    (w : Edge → ℚ) (handle : Nat) : Nat → Nat → Bool
  | _, 0 => false
  | vtx, fuel + 1 =>
    match pred vtx with
    | none => false
    | some (utx, e) =>
      if dget dist utx + w e < dget dist vtx then true
      else if utx = handle then false
      else is_negative_aux pred dist w handle utx fuel

/-- The check `NegCycleFinder::is_negative` from the alternative implementation. -/
def is_negative (n : Nat) (s : NCF) (w : Edge → ℚ) (handle : Nat) : Bool :=
  is_negative_aux s.pred s.dist w handle handle (n + 1)

/-- The forward-adjacency closed-walk shape claimed by the specification
for the returned witness list (in the order returned). -/
def ForwardClosedSpec (c : List Edge) : Prop :=
  c ≠ [] ∧ List.Chain' (fun a b => a.tgt = b.src) c ∧
    c.getLast?.map Edge.tgt = c.head?.map Edge.src

/-! ### `MaxParametricSolver` (src/src/parametric.rs) -/
/-- The caller-supplied policy object (`ParametricAPI` trait). -/
structure ParametricAPI where
  distance : ℚ → Edge → ℚ
  zero_cancel : List Edge → ℚ

/-- The loop of `MaxParametricSolver::run`, instrumented with the list of
adopted ratio values (the trace).  `of` counts outer iterations, `hf` is
the fuel handed to each inner `howard` call; a `none` result means some
fuel ran out.  Each iteration resets the distance array to zero, runs
`howard` with the transformed weights, and adopts the found cycle's own
ratio only when strictly smaller than the current one. -/
def runTrF (g : Graph) (om : ParametricAPI) (dist : List ℚ) :
    ℚ → List Edge → Nat → Nat → Option (ℚ × List Edge × List ℚ)
  | _, _, _, 0 => none
  | r, cyc, hf, of + 1 =>
    match (howard g (fun e => om.distance r e) (dist.map fun _ => 0) hf).1 with
    | none => none
    | some none => some (r, cyc, [])
    | some (some ci) =>
      if om.zero_cancel ci < r then
        match runTrF g om dist (om.zero_cancel ci) ci hf of with
        | none => none
        | some (r', c', tr) => some (r', c', om.zero_cancel ci :: tr)
      else some (r, cyc, [])

/-- The driver `MaxParametricSolver::run`: final ratio and final best witness cycle
(the source mutates `ratio` in place and returns the cycle). -/
def runP (g : Graph) (om : ParametricAPI) (dist : List ℚ) (r : ℚ)
    (hf of : Nat) : Option (ℚ × List Edge) :=
  (runTrF g om dist r [] hf of).map fun x => (x.1, x.2.1)

/-- All edge lists of length at most `k` over the edge pool `es`. -/
def tuples (es : List Edge) : Nat → List (List Edge)
  | 0 => [[]]
  | k + 1 => [] :: es.bind fun e => (tuples es k).map (e :: ·)

/-- The finite pool of cycle-ratio values `zero_cancel` can produce on
cycles of the graph (all have at most `n` edges drawn from the edge
list). -/
def cycleRatios (g : Graph) (om : ParametricAPI) : Finset ℚ :=
  ((tuples g.edges g.n).map om.zero_cancel).toFinset

/-! ### The Bellman–Ford baseline (src/src/lib.rs) -/
/-- Distance entries of the baseline: `⊤` models `FloatMeasure::infinite()`
(`∞ + w = ∞`, nothing is `< ∞` except finite values, as for IEEE
infinities on finite weights). -/
def dgetT (d : List (WithTop ℚ)) (i : Nat) : WithTop ℚ :=
  d.getD i ⊤

/-- The state of `bellman_ford_initialize_relax`: `distance` and
`predecessor` vectors indexed by node. -/
structure BFState where
  distance : List (WithTop ℚ)
  predecessor : List (Option Nat)

/-- One edge step of the relaxation loop of `bellman_ford_initialize_relax`. -/
def bfRelaxEdge (p : BFState × Bool) (e : Edge) : BFState × Bool :=
  if dgetT p.1.distance e.src + (e.weight : WithTop ℚ) < dgetT p.1.distance e.tgt then
    (⟨p.1.distance.set e.tgt (dgetT p.1.distance e.src + (e.weight : WithTop ℚ)),
      p.1.predecessor.set e.tgt (some e.src)⟩, true)
  else p

/-- One full pass over all edges (`for i in node_identifiers, for edge in
edges(i)`). -/
def bfPass (g : Graph) (s : BFState) : BFState × Bool :=
  g.edges.foldl bfRelaxEdge (s, false)

/-- The bounded relaxation loop (`for _ in 1..node_count`), with the early
exit when a pass changes nothing. -/
def bfLoop (g : Graph) : Nat → BFState → BFState
  | 0, s => s
  | k + 1, s =>
    if (bfPass g s).2 then bfLoop g k (bfPass g s).1 else (bfPass g s).1

/-- Initial state: all distances infinite except the source at zero, no
predecessors. -/
def bfInit (g : Graph) (src : Nat) : BFState :=
  ⟨(List.replicate g.n (⊤ : WithTop ℚ)).set src 0, List.replicate g.n none⟩

/-- The relaxation `bellman_ford_initialize_relax` (src/src/lib.rs lines 329-362). -/
def bellman_ford_initialize_relax (g : Graph) (src : Nat) : BFState :=
  bfLoop g (g.n - 1) (bfInit g src)

/-- Result of `bellman_ford`: the distinguished `NegativeCycle` error or
the distance/predecessor vectors. -/
inductive BFResult
  | err
  | ok (distance : List (WithTop ℚ)) (predecessor : List (Option Nat))
deriving DecidableEq, Repr

/-- The baseline `bellman_ford` (src/src/lib.rs lines 174-202): relax, then scan once
more; any still-improvable edge signals a reachable negative cycle. -/
def bellman_ford (g : Graph) (src : Nat) : BFResult :=
  let s := bellman_ford_initialize_relax g src
  if g.edges.any (fun e =>
      decide (dgetT s.distance e.src + (e.weight : WithTop ℚ) < dgetT s.distance e.tgt))
  then BFResult.err
  else BFResult.ok s.distance s.predecessor

/-- Result of `find_negative_cycle`; `panicked` models the `unwrap()` of a
missing predecessor, `fuelOut` is the model's fuel artefact. -/
inductive FncResult
  | fuelOut
  | panicked
  | result (r : Option (List Nat))
deriving DecidableEq, Repr

/-- The first loop of the reconstruction: follow predecessors from the
violating edge's target until a node repeats (`while path_set.visit(node)`). -/
def fncWalkA (pred : List (Option Nat)) : List Nat → Nat → Nat → Option (Option Nat)
  | _, _, 0 => none
  | vis, node, fuel + 1 =>
    if node ∈ vis then some (some node)
    else
      match pred.getD node none with
      | none => some none
      | some p => fncWalkA pred (node :: vis) p fuel

/-- The second loop: walk the cycle from the repeated node, collecting the
path in push order (`loop { path.push(cycle_node); … }`). -/
def fncWalkB (pred : List (Option Nat)) (node : Nat) : Nat → Nat → Option (Option (List Nat))
  | _, 0 => none
  | cur, fuel + 1 =>
    match pred.getD cur none with
    | none => some none
    | some nxt =>
      if nxt = node then some (some [cur, nxt])
      else
        match fncWalkB pred node nxt fuel with
        | none => none
        | some none => some none
        | some (some path) => some (some (cur :: path))

/-- The reconstruction `find_negative_cycle` (src/src/lib.rs lines 251-299): find the first
still-improvable edge in scan order, walk predecessors to a repeated node,
reconstruct the cycle, then reverse/pop/reverse as in the source. -/
def find_negative_cycle (g : Graph) (src : Nat) (fuel : Nat) : FncResult :=
  let s := bellman_ford_initialize_relax g src
  match g.edges.find? (fun e =>
      decide (dgetT s.distance e.src + (e.weight : WithTop ℚ) < dgetT s.distance e.tgt)) with
  | none => FncResult.result none
  | some e =>
    match fncWalkA s.predecessor [] e.tgt fuel with
    | none => FncResult.fuelOut
    | some none => FncResult.panicked
    | some (some node) =>
      match fncWalkB s.predecessor node node fuel with
      | none => FncResult.fuelOut
      | some none => FncResult.panicked
      | some (some path) =>
        let path2 := (path.reverse).dropLast
        if path2.isEmpty then FncResult.result none
        else FncResult.result (some path2.reverse)

/-- A negative cycle reachable from `src` (the error condition of the
Bellman–Ford baseline). -/
def negCycleFrom (g : Graph) (src : Nat) : Prop :=
  ∃ z c, c ≠ [] ∧ IsWalk g z z c ∧ wsum Edge.weight c < 0 ∧ Reach g src z

/-- Iterated passes: `k` relaxation passes of the baseline, without the early break. -/
def bfIter (g : Graph) : Nat → BFState → BFState
  | 0, s => s
  | k + 1, s => bfIter g k (bfPass g s).1

/-- Every finite distance entry is achieved by a walk from `src`. -/
def Achieves (g : Graph) (src : Nat) (d : List (WithTop ℚ)) : Prop :=
  ∀ v, dgetT d v = ⊤ ∨
    ∃ W, IsWalk g src v W ∧ dgetT d v = ((wsum Edge.weight W : ℚ) : WithTop ℚ)

/-! ### Concrete instances used by the witnesses -/
/-- A triangle whose every edge has weight `-1`: a negative cycle. -/
def gNeg : Graph := ⟨3, [⟨0, 1, -1⟩, ⟨1, 2, -1⟩, ⟨2, 0, -1⟩]⟩

/-- A single edge: no cycle at all. -/
def g1 : Graph := ⟨2, [⟨0, 1, 5⟩]⟩

/-- The failing input of the reconstruction bug: from source 3 the
negative cycle `1 → 2 → 1` is reachable, and the shortest-path
predecessor of node 3 is absent. -/
def g4 : Graph := ⟨4, [⟨1, 0, 1⟩, ⟨1, 2, 0⟩, ⟨2, 1, -1⟩, ⟨3, 0, 0⟩, ⟨3, 1, 0⟩]⟩

/-- The two-edge path of the specification's worked scenario. -/
def g6 : Graph := ⟨3, [⟨0, 1, 4⟩, ⟨1, 2, 3⟩]⟩

/-- A concrete policy object: transformed weight `w - r`, cycle ratio the
mean weight. -/
def omW : ParametricAPI :=
  ⟨fun r e => e.weight - r, fun c => wsum Edge.weight c / c.length⟩

/-- The state of the triangle run after its first relaxation pass (the
predecessor map already carries the cycle). -/
def sW : NCF := (relax gNeg Edge.weight ⟨[0, 0, 0], fun _ => none⟩).1

/-- The witness list `howard` returns on the triangle: predecessor order,
not source-to-target order. -/
def cex : List Edge := [⟨2, 0, -1⟩, ⟨1, 2, -1⟩, ⟨0, 1, -1⟩]

/-! ### Lemmas and theorems -/

lemma wsum_nil (w : Edge → ℚ) : wsum w [] = 0 := rfl

lemma wsum_cons (w : Edge → ℚ) (e : Edge) (c : List Edge) :
    wsum w (e :: c) = w e + wsum w c := by
  simp [wsum]

lemma wsum_append (w : Edge → ℚ) (a b : List Edge) :
    wsum w (a ++ b) = wsum w a + wsum w b := by
  simp [wsum]

lemma wsum_reverse (w : Edge → ℚ) (c : List Edge) :
    wsum w c.reverse = wsum w c := by
  simp [wsum, List.sum_reverse]

lemma isWalk_append {g : Graph} {u v : Nat} {A B : List Edge} {m : Nat}
    (hA : IsWalk g u m A) (hB : IsWalk g m v B) :
    IsWalk g u v (A ++ B) := by
  induction A generalizing u with
  | nil => cases hA; simpa using hB
  | cons e t ih =>
    obtain ⟨he, hsrc, hrest⟩ := hA
    exact ⟨he, hsrc, ih hrest⟩

lemma isWalk_append_split {g : Graph} {u v : Nat} {A B : List Edge}
    (h : IsWalk g u v (A ++ B)) :
    ∃ m, IsWalk g u m A ∧ IsWalk g m v B := by
  induction A generalizing u with
  | nil => exact ⟨u, rfl, h⟩
  | cons e t ih =>
    obtain ⟨he, hsrc, hrest⟩ := h
    obtain ⟨m, h1, h2⟩ := ih hrest
    exact ⟨m, ⟨he, hsrc, h1⟩, h2⟩

lemma isWalk_mem_edges {g : Graph} {u v : Nat} {W : List Edge}
    (h : IsWalk g u v W) : ∀ e ∈ W, e ∈ g.edges := by
  induction W generalizing u with
  | nil => intro e he; cases he
  | cons f t ih =>
    obtain ⟨hf, _, hrest⟩ := h
    intro e he
    rcases List.mem_cons.mp he with rfl | he
    · exact hf
    · exact ih hrest e he

lemma isWalk_snoc_tgt {g : Graph} {u v : Nat} {W : List Edge} {e : Edge}
    (h : IsWalk g u v (W ++ [e])) : v = e.tgt := by
  obtain ⟨m, _, h2⟩ := isWalk_append_split h
  obtain ⟨_, _, h3⟩ := h2
  exact h3.symm

lemma isWalk_snoc {g : Graph} {u v : Nat} {W : List Edge} {e : Edge}
    (h : IsWalk g u v W) (he : e ∈ g.edges) (hs : e.src = v) :
    IsWalk g u e.tgt (W ++ [e]) :=
  isWalk_append h ⟨he, hs, rfl⟩

lemma isWalk_src_lt {g : Graph} (hwf : g.Wf) {u v : Nat} {W : List Edge}
    (h : IsWalk g u v W) (hne : W ≠ []) : u < g.n := by
  cases W with
  | nil => exact absurd rfl hne
  | cons e t =>
    obtain ⟨he, hsrc, _⟩ := h
    exact hsrc ▸ (hwf e he).1

lemma isWalk_tgt_lt {g : Graph} (hwf : g.Wf) {u v : Nat} {W : List Edge}
    (h : IsWalk g u v W) (hne : W ≠ []) : v < g.n := by
  induction W generalizing u with
  | nil => exact absurd rfl hne
  | cons e t ih =>
    obtain ⟨he, _, hrest⟩ := h
    cases t with
    | nil => cases hrest; exact (hwf e he).2
    | cons f t' => exact ih hrest (by simp)

lemma dget_set_eq {d : List ℚ} {i : Nat} (x : ℚ) (h : i < d.length) :
    dget (d.set i x) i = x := by
  simp [dget, List.getD, List.getElem?_set_self', h]

lemma dget_set_ne {d : List ℚ} {i j : Nat} (x : ℚ) (h : j ≠ i) :
    dget (d.set i x) j = dget d j := by
  simp [dget, List.getD, List.getElem?_set_ne (Ne.symm h)]

lemma relaxEdge_dist_le (w : Edge → ℚ) (p : NCF × Bool) (e : Edge) (v : Nat) :
    dget (relaxEdge w p e).1.dist v ≤ dget p.1.dist v := by
  unfold relaxEdge
  split
  · rename_i hlt
    by_cases hv : v = e.tgt
    · rw [hv]
      by_cases hlen : e.tgt < p.1.dist.length
      · rw [dget_set_eq _ hlen]; exact le_of_lt hlt
      · have hset : p.1.dist.set e.tgt (dget p.1.dist e.src + w e) = p.1.dist :=
          List.set_eq_of_length_le (Nat.le_of_not_lt hlen)
        simp [hset]
    · rw [dget_set_ne _ hv]
  · exact le_refl _

lemma relaxEdge_len (w : Edge → ℚ) (p : NCF × Bool) (e : Edge) :
    (relaxEdge w p e).1.dist.length = p.1.dist.length := by
  unfold relaxEdge
  split <;> simp

lemma foldl_relax_dist_le (w : Edge → ℚ) (l : List Edge) (p : NCF × Bool)
    (v : Nat) :
    dget (l.foldl (relaxEdge w) p).1.dist v ≤ dget p.1.dist v := by
  induction l generalizing p with
  | nil => exact le_refl _
  | cons e t ih =>
    exact le_trans (ih (relaxEdge w p e)) (relaxEdge_dist_le w p e v)

lemma foldl_relax_len (w : Edge → ℚ) (l : List Edge) (p : NCF × Bool) :
    (l.foldl (relaxEdge w) p).1.dist.length = p.1.dist.length := by
  induction l generalizing p with
  | nil => rfl
  | cons e t ih => rw [List.foldl_cons, ih, relaxEdge_len]

lemma relax_dist_le (g : Graph) (w : Edge → ℚ) (s : NCF) (v : Nat) :
    dget (relax g w s).1.dist v ≤ dget s.dist v :=
  foldl_relax_dist_le w g.edges (s, false) v

lemma relax_len (g : Graph) (w : Edge → ℚ) (s : NCF) :
    (relax g w s).1.dist.length = s.dist.length :=
  foldl_relax_len w g.edges (s, false)

/-- After processing an edge, the target's distance is at most the source's
pre-step distance plus the weight. -/
lemma relaxEdge_tgt_le (w : Edge → ℚ) (p : NCF × Bool) (e : Edge)
    (hlen : e.tgt < p.1.dist.length) :
    dget (relaxEdge w p e).1.dist e.tgt ≤ dget p.1.dist e.src + w e := by
  obtain ⟨s, ch⟩ := p
  unfold relaxEdge
  split
  · rw [dget_set_eq _ hlen]
  · rename_i h; exact le_of_not_lt h

/-- During one `relax` pass, every edge of the pass satisfies: afterwards
`dist[e.tgt] ≤ (pass-start dist)[e.src] + w e`. -/
lemma foldl_relax_edge_bound (w : Edge → ℚ) (l : List Edge) (p : NCF × Bool)
    (hlen : ∀ e ∈ l, e.tgt < p.1.dist.length) :
    ∀ e ∈ l, dget (l.foldl (relaxEdge w) p).1.dist e.tgt ≤
      dget p.1.dist e.src + w e := by
  induction l generalizing p with
  | nil => intro e he; cases he
  | cons f t ih =>
    intro e he
    rcases List.mem_cons.mp he with rfl | he
    · calc dget ((e :: t).foldl (relaxEdge w) p).1.dist e.tgt
          ≤ dget (relaxEdge w p e).1.dist e.tgt :=
            foldl_relax_dist_le w t (relaxEdge w p e) e.tgt
        _ ≤ dget p.1.dist e.src + w e :=
            relaxEdge_tgt_le w p e (hlen e (List.mem_cons_self e t))
    · have hlen' : ∀ e' ∈ t, e'.tgt < (relaxEdge w p f).1.dist.length := by
        intro e' he'
        rw [relaxEdge_len]
        exact hlen e' (List.mem_cons_of_mem f he')
      calc dget (t.foldl (relaxEdge w) (relaxEdge w p f)).1.dist e.tgt
          ≤ dget (relaxEdge w p f).1.dist e.src + w e :=
            ih (relaxEdge w p f) hlen' e he
        _ ≤ dget p.1.dist e.src + w e := by
            have := relaxEdge_dist_le w p f e.src
            linarith

lemma relax_edge_bound (g : Graph) (w : Edge → ℚ) (s : NCF)
    (hlen : s.dist.length = g.n) (hwf : g.Wf) :
    ∀ e ∈ g.edges, dget (relax g w s).1.dist e.tgt ≤ dget s.dist e.src + w e := by
  apply foldl_relax_edge_bound
  intro e he
  simpa [hlen] using (hwf e he).2

lemma relaxEdge_flag_mono (w : Edge → ℚ) (p : NCF × Bool) (e : Edge)
    (hp : p.2 = true) : (relaxEdge w p e).2 = true := by
  unfold relaxEdge
  split
  · rfl
  · exact hp

/-- The changed flag is monotone along a pass: once set it stays set. -/
lemma foldl_relax_flag_mono (w : Edge → ℚ) (l : List Edge) (p : NCF × Bool)
    (hp : p.2 = true) : (l.foldl (relaxEdge w) p).2 = true := by
  induction l generalizing p with
  | nil => exact hp
  | cons f t ih =>
    rw [List.foldl_cons]
    exact ih _ (relaxEdge_flag_mono w p f hp)

/-- If the changed flag comes back `false`, no edge updated anything, so the
state is exactly the input pair. -/
lemma foldl_relax_false (w : Edge → ℚ) (l : List Edge) (p : NCF × Bool)
    (h : (l.foldl (relaxEdge w) p).2 = false) :
    l.foldl (relaxEdge w) p = p := by
  induction l generalizing p with
  | nil => rfl
  | cons e t ih =>
    rw [List.foldl_cons] at h ⊢
    by_cases hc : dget p.1.dist e.src + w e < dget p.1.dist e.tgt
    · exfalso
      have hstep : (relaxEdge w p e).2 = true := by
        unfold relaxEdge; rw [if_pos hc]
      rw [foldl_relax_flag_mono w t _ hstep] at h
      cases h
    · have hstep : relaxEdge w p e = p := by
        unfold relaxEdge; rw [if_neg hc]
      rw [hstep] at h ⊢
      exact ih p h

/-- A `false` result of `relax` means the state is a relaxation fixpoint:
no edge can improve any distance. -/
lemma relax_false_fixpoint (g : Graph) (w : Edge → ℚ) (s : NCF)
    (h : (relax g w s).2 = false) :
    ∀ e ∈ g.edges, dget s.dist e.tgt ≤ dget s.dist e.src + w e := by
  intro e he
  by_contra hlt
  push_neg at hlt
  obtain ⟨l1, l2, hsplit⟩ := List.append_of_mem he
  unfold relax at h
  rw [hsplit, List.foldl_append, List.foldl_cons] at h
  -- the prefix fold cannot have set the flag, so its state is `s`
  have h1 : (l1.foldl (relaxEdge w) (s, false)).2 = false := by
    cases hb : (l1.foldl (relaxEdge w) (s, false)).2
    · rfl
    · exfalso
      have hstep : (relaxEdge w (l1.foldl (relaxEdge w) (s, false)) e).2 = true :=
        relaxEdge_flag_mono w _ e hb
      rw [foldl_relax_flag_mono w l2 _ hstep] at h
      cases h
  rw [foldl_relax_false w l1 _ h1] at h
  -- now edge `e` is processed on state `s`, and it is improvable
  have hstep : (relaxEdge w (s, false) e).2 = true := by
    unfold relaxEdge; rw [if_pos hlt]
  rw [foldl_relax_flag_mono w l2 _ hstep] at h
  cases h

lemma sum_map_sub (F H : Edge → ℚ) (l : List Edge) :
    (l.map fun x => F x - H x).sum = (l.map F).sum - (l.map H).sum := by
  induction l with
  | nil => simp
  | cons f t ih =>
    simp only [List.map_cons, List.sum_cons]
    rw [ih]; ring

/-- Telescoping a node potential along a walk. -/
lemma walk_telescope (g : Graph) (φ : Nat → ℚ) {u v : Nat} {W : List Edge}
    (h : IsWalk g u v W) :
    (W.map fun f => φ f.tgt - φ f.src).sum = φ v - φ u := by
  induction W generalizing u with
  | nil => cases h; simp
  | cons e t ih =>
    obtain ⟨_, hsrc, hrest⟩ := h
    rw [List.map_cons, List.sum_cons, ih hrest, hsrc]
    ring

lemma closed_telescope (g : Graph) (φ : Nat → ℚ) {z : Nat} {W : List Edge}
    (h : IsWalk g z z W) :
    (W.map fun f => φ f.tgt - φ f.src).sum = 0 := by
  rw [walk_telescope g φ h]; ring

/-- The initial state (caller's array, cleared predecessor map) is good. -/
lemma good_init (g : Graph) (w : Edge → ℚ) (d0 : List ℚ)
    (hlen : d0.length = g.n) : Good g w d0 ⟨d0, fun _ => none⟩ where
  len := hlen
  inv := by intro v u e h; cases h
  root := by intro v _; rfl
  ach := by intro v; exact ⟨v, [], rfl, by simp [wsum_nil]⟩
  neg := by
    intro c hc
    obtain ⟨hne, harr, _⟩ := hc
    obtain ⟨e, he⟩ := List.exists_mem_of_ne_nil c hne
    cases harr e he

/-- Processing one in-range edge preserves the invariant. -/
lemma good_relaxEdge (g : Graph) (w : Edge → ℚ) (d0 : List ℚ) (hwf : g.Wf)
    (p : NCF × Bool) (e : Edge) (he : e ∈ g.edges) (hg : Good g w d0 p.1) :
    Good g w d0 (relaxEdge w p e).1 := by
  by_cases hlt : dget p.1.dist e.src + w e < dget p.1.dist e.tgt
  case neg =>
    have : relaxEdge w p e = p := by unfold relaxEdge; rw [if_neg hlt]
    rw [this]; exact hg
  case pos =>
  have htl : e.tgt < p.1.dist.length := by rw [hg.len]; exact (hwf e he).2
  have hstep : (relaxEdge w p e).1 =
      ⟨p.1.dist.set e.tgt (dget p.1.dist e.src + w e),
        fun v => if v = e.tgt then some (e.src, e) else p.1.pred v⟩ := by
    unfold relaxEdge; rw [if_pos hlt]
  set d : ℚ := dget p.1.dist e.src + w e with hd
  -- distances never increase at the step
  have hdec : ∀ v, dget (p.1.dist.set e.tgt d) v ≤ dget p.1.dist v := by
    intro v
    by_cases hv : v = e.tgt
    · rw [hv, dget_set_eq _ htl]; exact le_of_lt hlt
    · rw [dget_set_ne _ hv]
  have hsame : ∀ v, v ≠ e.tgt → dget (p.1.dist.set e.tgt d) v = dget p.1.dist v := by
    intro v hv; exact dget_set_ne _ hv
  rw [hstep]
  constructor
  · simpa using hg.len
  · intro v u f harr
    simp only at harr
    by_cases hv : v = e.tgt
    · rw [if_pos hv] at harr
      simp only [Option.some.injEq, Prod.mk.injEq] at harr
      obtain ⟨rfl, rfl⟩ := harr
      refine ⟨he, rfl, hv.symm, ?_⟩
      rw [hv, dget_set_eq _ htl]
      calc dget (p.1.dist.set e.tgt d) e.src + w e
          ≤ dget p.1.dist e.src + w e := by
            have := hdec e.src; linarith
        _ = d := hd.symm
    · rw [if_neg hv] at harr
      obtain ⟨hf, hfs, hft, hrel⟩ := hg.inv v u f harr
      refine ⟨hf, hfs, hft, ?_⟩
      rw [hsame v hv]
      calc dget (p.1.dist.set e.tgt d) u + w f
          ≤ dget p.1.dist u + w f := by have := hdec u; linarith
        _ ≤ dget p.1.dist v := hrel
  · intro v hnone
    simp only at hnone
    by_cases hv : v = e.tgt
    · rw [if_pos hv] at hnone; cases hnone
    · rw [if_neg hv] at hnone
      rw [hsame v hv]
      exact hg.root v hnone
  · intro v
    by_cases hv : v = e.tgt
    · obtain ⟨u, W, hW, hval⟩ := hg.ach e.src
      rw [hv]
      refine ⟨u, W ++ [e], isWalk_snoc hW he rfl, ?_⟩
      rw [dget_set_eq _ htl, hd, hval, wsum_append, wsum_cons, wsum_nil]
      ring
    · rw [hsame v hv]
      exact hg.ach v
  · intro c hc
    obtain ⟨hne, harr, z, hclosed⟩ := hc
    simp only at harr
    by_cases hmem : e ∈ c
    case neg =>
      -- no arrow of `c` targets `e.tgt`, so `c` is an old predecessor cycle
      have harr' : ∀ f ∈ c, p.1.pred f.tgt = some (f.src, f) := by
        intro f hf
        have := harr f hf
        by_cases hft : f.tgt = e.tgt
        · rw [if_pos hft] at this
          simp only [Option.some.injEq, Prod.mk.injEq] at this
          exact absurd (this.2 ▸ hf) hmem
        · rwa [if_neg hft] at this
      exact hg.neg c ⟨hne, harr', z, hclosed⟩
    case pos =>
      -- `c` goes through the freshly relaxed edge; telescope the OLD
      -- distances around it
      set φ : Nat → ℚ := fun x => dget p.1.dist x with hφ
      have hterm : ∀ f ∈ c, f ≠ e → 0 ≤ φ f.tgt - φ f.src - w f := by
        intro f hf hfe
        have hft : f.tgt ≠ e.tgt := by
          intro hEq
          have := harr f hf
          rw [if_pos hEq] at this
          simp only [Option.some.injEq, Prod.mk.injEq] at this
          exact hfe this.2.symm
        have := harr f hf
        rw [if_neg hft] at this
        have hrel := (hg.inv f.tgt f.src f this).2.2.2
        simp only [hφ]
        linarith
      have hterme : 0 < φ e.tgt - φ e.src - w e := by
        simp only [hφ]; linarith
      have htel : (c.map fun f => φ f.tgt - φ f.src).sum = 0 := by
        have h1 := closed_telescope g φ hclosed
        rw [List.map_reverse, List.sum_reverse] at h1
        exact h1
      have hsum : (c.map fun f => φ f.tgt - φ f.src - w f).sum = -(wsum w c) := by
        rw [sum_map_sub (fun f => φ f.tgt - φ f.src) w c, htel, wsum]
        ring
      have hpos : 0 < (c.map fun f => φ f.tgt - φ f.src - w f).sum := by
        obtain ⟨l1, l2, hsplit⟩ := List.append_of_mem hmem
        rw [hsplit, List.map_append, List.map_cons, List.sum_append, List.sum_cons]
        have hl1 : 0 ≤ (l1.map fun f => φ f.tgt - φ f.src - w f).sum := by
          apply List.sum_nonneg
          intro x hx
          obtain ⟨f, hf, rfl⟩ := List.mem_map.mp hx
          by_cases hfe : f = e
          · rw [hfe]; exact le_of_lt hterme
          · exact hterm f (by rw [hsplit]; exact List.mem_append_left _ hf) hfe
        have hl2 : 0 ≤ (l2.map fun f => φ f.tgt - φ f.src - w f).sum := by
          apply List.sum_nonneg
          intro x hx
          obtain ⟨f, hf, rfl⟩ := List.mem_map.mp hx
          by_cases hfe : f = e
          · rw [hfe]; exact le_of_lt hterme
          · refine hterm f ?_ hfe
            rw [hsplit]
            exact List.mem_append_right _ (List.mem_cons_of_mem e hf)
        linarith
      rw [hsum] at hpos
      linarith

lemma good_foldl_relax (g : Graph) (w : Edge → ℚ) (d0 : List ℚ) (hwf : g.Wf)
    (l : List Edge) (hl : ∀ e ∈ l, e ∈ g.edges) (p : NCF × Bool)
    (hg : Good g w d0 p.1) : Good g w d0 (l.foldl (relaxEdge w) p).1 := by
  induction l generalizing p with
  | nil => exact hg
  | cons e t ih =>
    rw [List.foldl_cons]
    exact ih (fun f hf => hl f (List.mem_cons_of_mem e hf)) _
      (good_relaxEdge g w d0 hwf p e (hl e (List.mem_cons_self e t)) hg)

lemma good_relax (g : Graph) (w : Edge → ℚ) (d0 : List ℚ) (hwf : g.Wf)
    (s : NCF) (hg : Good g w d0 s) : Good g w d0 (relax g w s).1 :=
  good_foldl_relax g w d0 hwf g.edges (fun _ h => h) (s, false) hg

lemma piIter_add (π : Nat → Option Nat) (a b : Nat) (v : Nat) :
    piIter π (a + b) v = match piIter π a v with
      | none => none
      | some u => piIter π b u := by
  induction a generalizing v with
  | zero => simp [piIter]
  | succ a ih =>
    have : a + 1 + b = (a + b) + 1 := by omega
    rw [this]
    show (match π v with
      | none => none
      | some u => piIter π (a + b) u) = _
    cases hπ : π v with
    | none => simp [piIter, hπ]
    | some u =>
      simp only [piIter, hπ]
      exact ih u

lemma piIter_succ_right (π : Nat → Option Nat) (k : Nat) (v : Nat) :
    piIter π (k + 1) v = match piIter π k v with
      | none => none
      | some u => π u := by
  rw [piIter_add π k 1 v]
  cases piIter π k v with
  | none => rfl
  | some u => simp [piIter]; cases π u <;> simp [piIter]

lemma rpath_cons (π : Nat → Option Nat) {a : Nat} {rp : List Nat}
    (hne : rp ≠ []) (hπ : π rp.headI = some a) (h : RPath π rp) :
    RPath π (a :: rp) := by
  cases rp with
  | nil => exact absurd rfl hne
  | cons b t => exact ⟨hπ, h⟩

lemma rpath_prefix (π : Nat → Option Nat) :
    ∀ {l l' : List Nat}, RPath π (l ++ l') → RPath π l := by
  intro l
  induction l with
  | nil => intro l' _; trivial
  | cons a t ih =>
    intro l' h
    cases t with
    | nil => trivial
    | cons b t2 =>
      obtain ⟨h1, h2⟩ := h
      exact ⟨h1, ih h2⟩

lemma rpath_iter (π : Nat → Option Nat) :
    ∀ (q : List Nat) (a : Nat), RPath π (q ++ [a]) →
      piIter π q.length a = some ((q ++ [a]).headI) := by
  intro q
  induction q with
  | nil => intro a _; simp [piIter]
  | cons h t ih =>
    intro a hrp
    have hstruct : ∃ b rest, t ++ [a] = b :: rest := by
      cases t with
      | nil => exact ⟨a, [], rfl⟩
      | cons x y => exact ⟨x, y ++ [a], rfl⟩
    obtain ⟨b, rest, hbr⟩ := hstruct
    have hrp' : RPath π (h :: b :: rest) := by rwa [List.cons_append, hbr] at hrp
    obtain ⟨hπb, hrest⟩ := hrp'
    have hih := ih a (by rwa [hbr])
    have hhead : (t ++ [a]).headI = b := by rw [hbr]; rfl
    rw [hhead] at hih
    show piIter π (t.length + 1) a = some ((h :: t ++ [a]).headI)
    rw [piIter_succ_right, hih]
    show π b = some ((h :: t ++ [a]).headI)
    rw [hπb]
    rfl

lemma headI_append_mid (q1 q2 : List Nat) (a : Nat) :
    (q1 ++ a :: q2).headI = (q1 ++ [a]).headI := by
  cases q1 <;> rfl

lemma vlookup_cons (k r x : Nat) (t : List (Nat × Nat)) :
    vlookup ((k, r) :: t) x = if x = k then some r else vlookup t x := rfl

/-- Unfolding equation of the inner walk at positive fuel. -/
lemma fcInner_succ (π : Nat → Option Nat) (vtx : Nat) (vis : List (Nat × Nat))
    (utx fuel : Nat) :
    fcInner π vtx vis utx (fuel + 1) =
    if (vlookup vis utx).isSome then (vis, none)
    else
      match π utx with
      | none => ((utx, vtx) :: vis, none)
      | some nxt =>
        match vlookup ((utx, vtx) :: vis) nxt with
        | some r =>
          if r = vtx then ((utx, vtx) :: vis, some nxt)
          else ((utx, vtx) :: vis, none)
        | none => fcInner π vtx ((utx, vtx) :: vis) nxt fuel := rfl

/-- Soundness of the inner walk: a returned node lies on a `π`-cycle. -/
lemma fcInner_sound (π : Nat → Option Nat) (vtx : Nat) :
    ∀ (fuel : Nat) (vis : List (Nat × Nat)) (utx : Nat) (rp : List Nat),
      InnerInv π vtx vis rp utx →
      ∀ u, (fcInner π vtx vis utx fuel).2 = some u → OnCycle π u := by
  intro fuel
  induction fuel with
  | zero => intro vis utx rp _ u h; cases h
  | succ fuel ih =>
    intro vis utx rp hinv u h
    obtain ⟨hiff, hrp, hshape⟩ := hinv
    rw [fcInner_succ] at h
    by_cases hvis : (vlookup vis utx).isSome
    · rw [if_pos hvis] at h; cases h
    · rw [if_neg hvis] at h
      have hmem : utx ∉ rp := by
        intro hm
        exact hvis (by rw [(hiff utx).mpr hm]; rfl)
      -- the updated invariant
      have hiff' : ∀ x, vlookup ((utx, vtx) :: vis) x = some vtx ↔ x ∈ utx :: rp := by
        intro x
        rw [vlookup_cons]
        by_cases hx : x = utx
        · simp [hx]
        · rw [if_neg hx, hiff]
          simp [hx]
      have hrpath' : RPath π (utx :: rp) := by
        rcases hshape with ⟨hnil, hutx⟩ | ⟨hne, _, hπ⟩
        · rw [hnil]; trivial
        · exact rpath_cons π hne hπ hrp
      have hlast' : (utx :: rp).getLast? = some vtx := by
        rcases hshape with ⟨hnil, hutx⟩ | ⟨hne, hlast, _⟩
        · rw [hnil, hutx]; rfl
        · cases rp with
          | nil => exact absurd rfl hne
          | cons b t => rw [List.getLast?_cons_cons]; exact hlast
      cases hπu : π utx with
      | none => rw [hπu] at h; cases h
      | some nxt =>
        rw [hπu] at h
        simp only at h
        cases hlk : vlookup ((utx, vtx) :: vis) nxt with
        | some r =>
          rw [hlk] at h
          simp only at h
          by_cases hr : r = vtx
          · rw [if_pos hr] at h
            -- cycle found: `nxt` is tagged with the current root
            have hnmem : nxt ∈ utx :: rp := (hiff' nxt).mp (hr ▸ hlk)
            obtain ⟨q1, q2, hsplit⟩ := List.append_of_mem hnmem
            have hpre : RPath π (q1 ++ [nxt]) := by
              have heq : utx :: rp = (q1 ++ [nxt]) ++ q2 := by
                rw [hsplit]; simp
              exact rpath_prefix π (heq ▸ hrpath')
            have hiter : piIter π q1.length nxt = some (utx :: rp).headI := by
              rw [rpath_iter π q1 nxt hpre, hsplit]
              exact congrArg some (headI_append_mid q1 q2 nxt).symm
            have hcyc : piIter π (q1.length + 1) nxt = some nxt := by
              rw [piIter_succ_right, hiter]
              show π utx = some nxt
              exact hπu
            have hu : u = nxt := by cases h; rfl
            rw [hu]
            exact ⟨q1.length + 1, Nat.succ_pos _, hcyc⟩
          · rw [if_neg hr] at h; cases h
        | none =>
          rw [hlk] at h
          simp only at h
          -- continue the walk: the invariant is re-established
          refine ih ((utx, vtx) :: vis) nxt (utx :: rp)
            ⟨hiff', hrpath', Or.inr ⟨by simp, hlast', hπu⟩⟩ u h

lemma vlookup_cons_isSome (k r x : Nat) (t : List (Nat × Nat))
    (h : (vlookup t x).isSome) : (vlookup ((k, r) :: t) x).isSome := by
  rw [vlookup_cons]
  by_cases hx : x = k
  · rw [if_pos hx]; rfl
  · rwa [if_neg hx]

/-- The inner walk preserves tag sanity. -/
lemma fcInner_tagsOk (π : Nat → Option Nat) (vtx : Nat) :
    ∀ (fuel : Nat) (vis : List (Nat × Nat)) (utx : Nat),
      TagsOk vis → (utx = vtx ∨ (vlookup vis vtx).isSome) →
      TagsOk (fcInner π vtx vis utx fuel).1 := by
  intro fuel
  induction fuel with
  | zero => intro vis utx h _; exact h
  | succ fuel ih =>
    intro vis utx htags hroot
    rw [fcInner_succ]
    by_cases hvis : (vlookup vis utx).isSome
    · rw [if_pos hvis]; exact htags
    · rw [if_neg hvis]
      have hrootvis' : (vlookup ((utx, vtx) :: vis) vtx).isSome := by
        rcases hroot with rfl | hs
        · rw [vlookup_cons, if_pos rfl]; rfl
        · exact vlookup_cons_isSome _ _ _ _ hs
      have htags' : TagsOk ((utx, vtx) :: vis) := by
        intro x t hx
        rw [vlookup_cons] at hx
        by_cases hxu : x = utx
        · rw [if_pos hxu] at hx
          cases hx
          exact hrootvis'
        · rw [if_neg hxu] at hx
          exact vlookup_cons_isSome _ _ _ _ (htags x t hx)
      cases hπu : π utx with
      | none => exact htags'
      | some nxt =>
        show TagsOk (match vlookup ((utx, vtx) :: vis) nxt with
          | some r => if r = vtx then ((utx, vtx) :: vis, some nxt)
            else ((utx, vtx) :: vis, none)
          | none => fcInner π vtx ((utx, vtx) :: vis) nxt fuel).1
        cases hlk : vlookup ((utx, vtx) :: vis) nxt with
        | some r =>
          show TagsOk (if r = vtx then ((utx, vtx) :: vis, some nxt)
            else ((utx, vtx) :: vis, none)).1
          by_cases hr : r = vtx
          · rw [if_pos hr]; exact htags'
          · rw [if_neg hr]; exact htags'
        | none =>
          show TagsOk (fcInner π vtx ((utx, vtx) :: vis) nxt fuel).1
          exact ih ((utx, vtx) :: vis) nxt htags' (Or.inr hrootvis')

/-- Soundness of the outer scan. -/
lemma fcOuter_sound (π : Nat → Option Nat) :
    ∀ (nodes : List Nat) (vis : List (Nat × Nat)) (fuel : Nat),
      TagsOk vis →
      ∀ u, fcOuter π nodes vis fuel = some u → OnCycle π u := by
  intro nodes
  induction nodes with
  | nil => intro vis fuel _ u h; cases h
  | cons v rest ih =>
    intro vis fuel htags u h
    unfold fcOuter at h
    by_cases hvis : (vlookup vis v).isSome
    · rw [if_pos hvis] at h
      exact ih vis fuel htags u h
    · rw [if_neg hvis] at h
      cases hfc : fcInner π v vis v fuel with
      | mk vis1 res =>
        rw [hfc] at h
        cases res with
        | some u1 =>
          have hu : u1 = u := by cases h; rfl
          have hinv : InnerInv π v vis [] v := by
            refine ⟨?_, trivial, Or.inl ⟨rfl, rfl⟩⟩
            intro x
            constructor
            · intro hx
              exfalso
              have := htags x v hx
              rw [Option.isSome_iff_exists] at this
              obtain ⟨y, hy⟩ := this
              exact hvis (by rw [hy]; rfl)
            · intro hx; cases hx
          have := fcInner_sound π v fuel vis v [] hinv u1
          rw [hfc] at this
          exact hu ▸ this rfl
        | none =>
          apply ih vis1 fuel _ u h
          have := fcInner_tagsOk π v fuel vis v htags (Or.inl rfl)
          rwa [hfc] at this

/-- Soundness of `find_cycle`: a returned node lies on a predecessor cycle. -/
lemma find_cycle_sound (n : Nat) (s : NCF) (u : Nat)
    (h : find_cycle n s = some u) : OnCycle (predPi s) u :=
  fcOuter_sound (predPi s) (List.range n) [] (n + 1)
    (by intro x t hx; cases hx) u h

lemma filter_sub_length {α : Type} (p q : α → Bool) (l : List α)
    (h : ∀ a ∈ l, p a → q a) : (l.filter p).length ≤ (l.filter q).length := by
  induction l with
  | nil => exact le_refl _
  | cons x t ih =>
    have ih' := ih (fun a ha hp => h a (List.mem_cons_of_mem x ha) hp)
    by_cases hp : p x
    · rw [List.filter_cons_of_pos hp,
        List.filter_cons_of_pos (h x (List.mem_cons_self x t) hp)]
      simpa using ih'
    · rw [List.filter_cons_of_neg hp]
      by_cases hq : q x
      · rw [List.filter_cons_of_pos hq]
        simp only [List.length_cons]
        omega
      · rw [List.filter_cons_of_neg hq]
        exact ih'

lemma filter_sub_length_lt {α : Type} (p q : α → Bool) (l : List α)
    (h : ∀ a ∈ l, p a → q a) (a : α) (ha : a ∈ l) (hqa : q a) (hpa : ¬ p a) :
    (l.filter p).length < (l.filter q).length := by
  induction l with
  | nil => cases ha
  | cons x t ih =>
    have hsub : ∀ b ∈ t, p b → q b := fun b hb hp => h b (List.mem_cons_of_mem x hb) hp
    rcases List.mem_cons.mp ha with rfl | ha'
    · rw [List.filter_cons_of_neg hpa, List.filter_cons_of_pos hqa]
      simp only [List.length_cons]
      exact Nat.lt_succ_of_le (filter_sub_length p q t hsub)
    · have ih' := ih hsub ha'
      by_cases hp : p x
      · rw [List.filter_cons_of_pos hp,
          List.filter_cons_of_pos (h x (List.mem_cons_self x t) hp)]
        simpa using ih'
      · rw [List.filter_cons_of_neg hp]
        by_cases hq : q x
        · rw [List.filter_cons_of_pos hq]
          simp only [List.length_cons]
          omega
        · rw [List.filter_cons_of_neg hq]
          exact ih'

lemma ucount_cons_le (vis : List (Nat × Nat)) (k r : Nat) (l : List Nat) :
    ucount ((k, r) :: vis) l ≤ ucount vis l := by
  apply filter_sub_length
  intro a _ hp
  rw [vlookup_cons] at hp
  by_cases hk : a = k
  · rw [if_pos hk] at hp; cases hp
  · rwa [if_neg hk] at hp

lemma ucount_cons_lt (vis : List (Nat × Nat)) (k r : Nat) (l : List Nat)
    (hk : k ∈ l) (hnone : vlookup vis k = none) :
    ucount ((k, r) :: vis) l < ucount vis l := by
  apply filter_sub_length_lt _ _ _ _ k hk
  · rw [hnone]; rfl
  · rw [vlookup_cons, if_pos rfl]
    simp
  · intro a _ hp
    rw [vlookup_cons] at hp
    by_cases hak : a = k
    · rw [if_pos hak] at hp; cases hp
    · rwa [if_neg hak] at hp

/-- A nodup sub-list cannot have more untagged nodes than the full range. -/
lemma ucount_subset_le (vis : List (Nat × Nat)) (C l : List Nat)
    (hnd : C.Nodup) (hsub : C ⊆ l) : ucount vis C ≤ ucount vis l := by
  have hsp : List.Subperm C l := List.subperm_of_subset hnd hsub
  exact (hsp.filter _).length_le

/-- The inner walk only adds entries to the visited map. -/
lemma fcInner_lookup_isSome (π : Nat → Option Nat) (vtx : Nat) :
    ∀ (fuel : Nat) (vis : List (Nat × Nat)) (utx x : Nat),
      (vlookup vis x).isSome →
      (vlookup (fcInner π vtx vis utx fuel).1 x).isSome := by
  intro fuel
  induction fuel with
  | zero => intro vis utx x h; exact h
  | succ fuel ih =>
    intro vis utx x h
    rw [fcInner_succ]
    by_cases hvis : (vlookup vis utx).isSome
    · rw [if_pos hvis]; exact h
    · rw [if_neg hvis]
      cases hπu : π utx with
      | none => exact vlookup_cons_isSome _ _ _ _ h
      | some nxt =>
        show (vlookup (match vlookup ((utx, vtx) :: vis) nxt with
          | some r => if r = vtx then ((utx, vtx) :: vis, some nxt)
            else ((utx, vtx) :: vis, none)
          | none => fcInner π vtx ((utx, vtx) :: vis) nxt fuel).1 x).isSome
        cases hlk : vlookup ((utx, vtx) :: vis) nxt with
        | some r =>
          show (vlookup (if r = vtx then ((utx, vtx) :: vis, some nxt)
            else ((utx, vtx) :: vis, none)).1 x).isSome
          by_cases hr : r = vtx
          · rw [if_pos hr]; exact vlookup_cons_isSome _ _ _ _ h
          · rw [if_neg hr]; exact vlookup_cons_isSome _ _ _ _ h
        | none =>
          show (vlookup (fcInner π vtx ((utx, vtx) :: vis) nxt fuel).1 x).isSome
          exact ih _ _ _ (vlookup_cons_isSome _ _ _ _ h)

/-- Walking inside a closed node set `C` whose nodes carry no foreign tag
always discovers a cycle (with enough fuel). -/
lemma fcInner_hits (π : Nat → Option Nat) (vtx : Nat) (C : List Nat)
    (hC : ∀ a ∈ C, ∃ b ∈ C, π a = some b) :
    ∀ (fuel : Nat) (vis : List (Nat × Nat)) (utx : Nat),
      utx ∈ C → vlookup vis utx = none →
      (∀ c ∈ C, vlookup vis c = none ∨ vlookup vis c = some vtx) →
      ucount vis C < fuel →
      ∃ u, (fcInner π vtx vis utx fuel).2 = some u := by
  intro fuel
  induction fuel with
  | zero => intro vis utx _ _ _ hcnt; omega
  | succ fuel ih =>
    intro vis utx hmemC hnone hctag hcnt
    rw [fcInner_succ]
    have hvis : ¬ (vlookup vis utx).isSome := by rw [hnone]; simp
    rw [if_neg hvis]
    obtain ⟨nxt, hnxtC, hπu⟩ := hC utx hmemC
    rw [hπu]
    show ∃ u, (match vlookup ((utx, vtx) :: vis) nxt with
      | some r => if r = vtx then ((utx, vtx) :: vis, some nxt)
        else ((utx, vtx) :: vis, none)
      | none => fcInner π vtx ((utx, vtx) :: vis) nxt fuel).2 = some u
    cases hlk : vlookup ((utx, vtx) :: vis) nxt with
    | some r =>
      have hr : r = vtx := by
        rw [vlookup_cons] at hlk
        by_cases hn : nxt = utx
        · rw [if_pos hn] at hlk; cases hlk; rfl
        · rw [if_neg hn] at hlk
          rcases hctag nxt hnxtC with hc | hc
          · rw [hc] at hlk; cases hlk
          · rw [hc] at hlk; cases hlk; rfl
      refine ⟨nxt, ?_⟩
      show (if r = vtx then ((utx, vtx) :: vis, some nxt)
        else ((utx, vtx) :: vis, none)).2 = some nxt
      rw [if_pos hr]
    | none =>
      show ∃ u, (fcInner π vtx ((utx, vtx) :: vis) nxt fuel).2 = some u
      apply ih ((utx, vtx) :: vis) nxt hnxtC hlk
      · intro c hc
        rw [vlookup_cons]
        by_cases hcu : c = utx
        · rw [if_pos hcu]; exact Or.inr rfl
        · rw [if_neg hcu]; exact hctag c hc
      · have := ucount_cons_lt vis utx vtx C hmemC hnone
        omega

/-- The inner walk started anywhere: either it reports a cycle node, or it
leaves every node of the closed untouched set `C` untagged; started inside
`C` it always reports. -/
lemma fcInner_clean (π : Nat → Option Nat) (vtx : Nat) (n : Nat)
    (hsupp : ∀ x y, π x = some y → y < n)
    (C : List Nat) (hC : ∀ a ∈ C, ∃ b ∈ C, π a = some b)
    (hnd : C.Nodup) (hCsub : ∀ c ∈ C, c < n) :
    ∀ (fuel : Nat) (vis : List (Nat × Nat)) (utx : Nat),
      utx < n →
      (∀ c ∈ C, vlookup vis c = none) →
      ucount vis (List.range n) < fuel →
      ((∃ u, (fcInner π vtx vis utx fuel).2 = some u) ∨
        ((fcInner π vtx vis utx fuel).2 = none ∧
          ∀ c ∈ C, vlookup (fcInner π vtx vis utx fuel).1 c = none)) ∧
      (utx ∈ C → ∃ u, (fcInner π vtx vis utx fuel).2 = some u) := by
  intro fuel
  induction fuel with
  | zero => intro vis utx _ _ hcnt; omega
  | succ fuel ih =>
    intro vis utx hun hclean hcnt
    by_cases hmemC : utx ∈ C
    · -- inside the cycle set: `fcInner_hits` applies
      have hnone : vlookup vis utx = none := hclean utx hmemC
      have hcnt' : ucount vis C < fuel + 1 := by
        have h1 : ucount vis C ≤ ucount vis (List.range n) :=
          ucount_subset_le vis C (List.range n) hnd
            (fun c hc => List.mem_range.mpr (hCsub c hc))
        omega
      have := fcInner_hits π vtx C hC (fuel + 1) vis utx hmemC hnone
        (fun c hc => Or.inl (hclean c hc)) hcnt'
      exact ⟨Or.inl this, fun _ => this⟩
    · refine ⟨?_, fun hm => absurd hm hmemC⟩
      by_cases hvis : (vlookup vis utx).isSome
      case pos =>
        have hred : fcInner π vtx vis utx (fuel + 1) = (vis, none) := by
          rw [fcInner_succ, if_pos hvis]
        rw [hred]
        exact Or.inr ⟨rfl, hclean⟩
      case neg =>
        have hclean' : ∀ c ∈ C, vlookup ((utx, vtx) :: vis) c = none := by
          intro c hc
          rw [vlookup_cons]
          by_cases hcu : c = utx
          · exact absurd (hcu ▸ hc) hmemC
          · rw [if_neg hcu]; exact hclean c hc
        cases hπu : π utx with
        | none =>
          have hred : fcInner π vtx vis utx (fuel + 1) = ((utx, vtx) :: vis, none) := by
            rw [fcInner_succ, if_neg hvis]
            simp only [hπu]
          rw [hred]
          exact Or.inr ⟨rfl, hclean'⟩
        | some nxt =>
          cases hlk : vlookup ((utx, vtx) :: vis) nxt with
          | some r =>
            by_cases hr : r = vtx
            · have hred : fcInner π vtx vis utx (fuel + 1) =
                  ((utx, vtx) :: vis, some nxt) := by
                rw [fcInner_succ, if_neg hvis]
                simp only [hπu, hlk, if_pos hr]
              rw [hred]
              exact Or.inl ⟨nxt, rfl⟩
            · have hred : fcInner π vtx vis utx (fuel + 1) =
                  ((utx, vtx) :: vis, none) := by
                rw [fcInner_succ, if_neg hvis]
                simp only [hπu, hlk, if_neg hr]
              rw [hred]
              exact Or.inr ⟨rfl, hclean'⟩
          | none =>
            have hred : fcInner π vtx vis utx (fuel + 1) =
                fcInner π vtx ((utx, vtx) :: vis) nxt fuel := by
              rw [fcInner_succ, if_neg hvis]
              simp only [hπu, hlk]
            rw [hred]
            have hucnt : ucount ((utx, vtx) :: vis) (List.range n) <
                ucount vis (List.range n) := by
              apply ucount_cons_lt
              · exact List.mem_range.mpr hun
              · cases ho : vlookup vis utx with
                | none => rfl
                | some y => rw [ho] at hvis; exact absurd rfl hvis
            exact (ih ((utx, vtx) :: vis) nxt (hsupp utx nxt hπu) hclean'
              (by omega)).1

lemma ucount_fcInner_le (π : Nat → Option Nat) (vtx fuel : Nat)
    (vis : List (Nat × Nat)) (utx : Nat) (l : List Nat) :
    ucount (fcInner π vtx vis utx fuel).1 l ≤ ucount vis l := by
  apply filter_sub_length
  intro a _ hp
  cases hs : (vlookup vis a).isSome
  · cases ho : vlookup vis a with
    | none => rfl
    | some y => rw [ho] at hs; cases hs
  · have := fcInner_lookup_isSome π vtx fuel vis utx a hs
    rw [Option.isSome_iff_exists] at this
    obtain ⟨y, hy⟩ := this
    rw [hy] at hp
    cases hp

/-- Unfolding equation of the outer scan. -/
lemma fcOuter_cons (π : Nat → Option Nat) (v : Nat) (rest : List Nat)
    (vis : List (Nat × Nat)) (fuel : Nat) :
    fcOuter π (v :: rest) vis fuel =
    if (vlookup vis v).isSome then fcOuter π rest vis fuel
    else
      match fcInner π v vis v fuel with
      | (_, some u) => some u
      | (vis', none) => fcOuter π rest vis' fuel := rfl

/-- Completeness of the outer scan: if a closed untouched node set `C`
has a member among the untried roots, a cycle node is reported. -/
lemma fcOuter_complete (π : Nat → Option Nat) (n : Nat)
    (hsupp : ∀ x y, π x = some y → y < n)
    (C : List Nat) (hC : ∀ a ∈ C, ∃ b ∈ C, π a = some b)
    (hnd : C.Nodup) (hCsub : ∀ c ∈ C, c < n) :
    ∀ (nodes : List Nat) (vis : List (Nat × Nat)) (fuel : Nat),
      (∀ x ∈ nodes, x < n) →
      (∀ c ∈ C, vlookup vis c = none) →
      (∃ c ∈ C, c ∈ nodes) →
      ucount vis (List.range n) < fuel →
      ∃ u, fcOuter π nodes vis fuel = some u := by
  intro nodes
  induction nodes with
  | nil =>
    intro vis fuel _ _ hex _
    obtain ⟨c, _, hc⟩ := hex
    cases hc
  | cons v rest ih =>
    intro vis fuel hbound hclean hex hcnt
    rw [fcOuter_cons]
    by_cases hvis : (vlookup vis v).isSome
    · rw [if_pos hvis]
      have hvC : v ∉ C := by
        intro hvc
        rw [hclean v hvc] at hvis
        cases hvis
      obtain ⟨c, hcC, hcn⟩ := hex
      have hcrest : c ∈ rest := by
        rcases List.mem_cons.mp hcn with rfl | h
        · exact absurd hcC hvC
        · exact h
      exact ih vis fuel (fun x hx => hbound x (List.mem_cons_of_mem v hx))
        hclean ⟨c, hcC, hcrest⟩ hcnt
    · rw [if_neg hvis]
      have hvn : v < n := hbound v (List.mem_cons_self v rest)
      have hfc := fcInner_clean π v n hsupp C hC hnd hCsub fuel vis v hvn hclean hcnt
      cases hres : fcInner π v vis v fuel with
      | mk vis1 res =>
        by_cases hvC : v ∈ C
        · obtain ⟨u, hu⟩ := hfc.2 hvC
          rw [hres] at hu
          have hres2 : res = some u := hu
          refine ⟨u, ?_⟩
          rw [hres2]
        · rcases hfc.1 with ⟨u, hu⟩ | ⟨hnone, hclean1⟩
          · rw [hres] at hu
            have hres2 : res = some u := hu
            refine ⟨u, ?_⟩
            rw [hres2]
          · rw [hres] at hnone hclean1
            have hres2 : res = none := hnone
            rw [hres2]
            show ∃ u, fcOuter π rest vis1 fuel = some u
            obtain ⟨c, hcC, hcn⟩ := hex
            have hcrest : c ∈ rest := by
              rcases List.mem_cons.mp hcn with rfl | h
              · exact absurd hcC hvC
              · exact h
            apply ih vis1 fuel (fun x hx => hbound x (List.mem_cons_of_mem v hx))
              (by simpa using hclean1) ⟨c, hcC, hcrest⟩
            have hle : ucount vis1 (List.range n) ≤ ucount vis (List.range n) := by
              have hm := ucount_fcInner_le π v fuel vis v (List.range n)
              rw [hres] at hm
              exact hm
            omega

lemma piIter_isSome_of_le (π : Nat → Option Nat) {k i v : Nat} {x : Nat}
    (h : piIter π k v = some x) (hik : i ≤ k) : (piIter π i v).isSome := by
  have hk : i + (k - i) = k := by omega
  have := piIter_add π i (k - i) v
  rw [hk, h] at this
  cases hi : piIter π i v with
  | none => rw [hi] at this; cases this
  | some y => rfl

lemma piIter_split (π : Nat → Option Nat) {j k v x : Nat}
    (hk : j ≤ k) (hj : piIter π j v = some x) :
    piIter π k v = piIter π (k - j) x := by
  have h : j + (k - j) = k := by omega
  have := piIter_add π j (k - j) v
  rw [h, hj] at this
  exact this

lemma piList_getD {π : Nat → Option Nat} {v k₀ : Nat} {i : Nat}
    (hk : piIter π k₀ v = some v) (hik : i < k₀) :
    piIter π i v = some ((piIter π i v).getD v) := by
  have := piIter_isSome_of_le π hk (Nat.le_of_lt hik)
  cases hx : piIter π i v with
  | none => rw [hx] at this; cases this
  | some x => rfl

lemma piList_mem_self {π : Nat → Option Nat} {v k₀ : Nat} (hpos : 0 < k₀) :
    v ∈ piList π v k₀ := by
  have h0 : (0 : Nat) ∈ List.range k₀ := List.mem_range.mpr hpos
  have : (piIter π 0 v).getD v = v := rfl
  exact this ▸ List.mem_map_of_mem _ h0

lemma piList_closed {π : Nat → Option Nat} {v k₀ : Nat} (hpos : 0 < k₀)
    (hk : piIter π k₀ v = some v) :
    ∀ a ∈ piList π v k₀, ∃ b ∈ piList π v k₀, π a = some b := by
  intro a ha
  obtain ⟨i, hi, hval⟩ := List.mem_map.mp ha
  have hik : i < k₀ := List.mem_range.mp hi
  have hia : piIter π i v = some a := by rw [← hval]; exact piList_getD hk hik
  have hnext : piIter π (i + 1) v = π a := by
    rw [piIter_succ_right, hia]
  by_cases hik1 : i + 1 < k₀
  · have hdef := piList_getD hk hik1
    refine ⟨(piIter π (i + 1) v).getD v, ?_, ?_⟩
    · exact List.mem_map_of_mem _ (List.mem_range.mpr hik1)
    · rw [← hnext]; exact hdef
  · have hieq : i + 1 = k₀ := by omega
    refine ⟨v, piList_mem_self hpos, ?_⟩
    rw [← hnext, hieq, hk]

lemma piList_nodup {π : Nat → Option Nat} {v k₀ : Nat}
    (hk : piIter π k₀ v = some v)
    (hmin : ∀ j, 0 < j → j < k₀ → piIter π j v ≠ some v) :
    (piList π v k₀).Nodup := by
  have key : ∀ i j, i < j → j < k₀ →
      (piIter π i v).getD v ≠ (piIter π j v).getD v := by
    intro i j hij hjk heq
    have hiv := piList_getD hk (lt_trans hij hjk)
    have hjv := piList_getD hk hjk
    set x := (piIter π i v).getD v with hx
    have hjx : piIter π j v = some x := by rw [hjv, ← heq]
    have h1 : piIter π k₀ v = piIter π (k₀ - j) x :=
      piIter_split π (Nat.le_of_lt hjk) hjx
    have h2 : piIter π (k₀ - j) x = some v := by rw [← h1, hk]
    have h3 : piIter π (i + (k₀ - j)) v = some v := by
      rw [piIter_add, hiv]
      exact h2
    have := hmin (i + (k₀ - j)) (by omega) (by omega) h3
    exact this
  apply List.Nodup.map_on
  · intro i hi j hj hf
    rcases lt_trichotomy i j with h | h | h
    · exact absurd hf (key i j h (List.mem_range.mp hj))
    · exact h
    · exact absurd hf.symm (key j i h (List.mem_range.mp hi))
  · exact List.nodup_range k₀

lemma piList_bound {π : Nat → Option Nat} {v k₀ n : Nat} (hpos : 0 < k₀)
    (hk : piIter π k₀ v = some v)
    (hsupp : ∀ x y, π x = some y → y < n) :
    ∀ a ∈ piList π v k₀, a < n := by
  have hvn : v < n := by
    obtain ⟨k', hk'⟩ : ∃ k', k₀ = k' + 1 := ⟨k₀ - 1, by omega⟩
    rw [hk', piIter_succ_right] at hk
    cases hl : piIter π k' v with
    | none => rw [hl] at hk; cases hk
    | some y =>
      rw [hl] at hk
      exact hsupp y v hk
  intro a ha
  obtain ⟨i, hi, hval⟩ := List.mem_map.mp ha
  have hik : i < k₀ := List.mem_range.mp hi
  have hia : piIter π i v = some a := by rw [← hval]; exact piList_getD hk hik
  cases i with
  | zero => cases hia; exact hvn
  | succ i' =>
    rw [piIter_succ_right] at hia
    cases hl : piIter π i' v with
    | none => rw [hl] at hia; cases hia
    | some y =>
      rw [hl] at hia
      exact hsupp y a hia

lemma ucount_nil (l : List Nat) : ucount [] l = l.length := by
  unfold ucount
  have : (l.filter fun x => (vlookup [] x).isNone) = l := by
    apply List.filter_eq_self.mpr
    intro a _
    rfl
  rw [this]

/-- The minimal period of a node on a `π`-cycle. -/
lemma onCycle_minimal (π : Nat → Option Nat) (v : Nat) (hv : OnCycle π v) :
    ∃ k₀, 0 < k₀ ∧ piIter π k₀ v = some v ∧
      ∀ j, 0 < j → j < k₀ → piIter π j v ≠ some v := by
  have hex : ∃ k, 0 < k ∧ piIter π k v = some v := hv
  refine ⟨Nat.find hex, (Nat.find_spec hex).1, (Nat.find_spec hex).2, ?_⟩
  intro j hj hjlt heq
  exact Nat.find_min hex hjlt ⟨hj, heq⟩

/-- Completeness of `find_cycle`: a cycle in the predecessor map is found. -/
lemma find_cycle_complete (n : Nat) (s : NCF)
    (hsupp : ∀ x y, predPi s x = some y → y < n)
    (v : Nat) (hv : OnCycle (predPi s) v) :
    ∃ u, find_cycle n s = some u := by
  obtain ⟨k₀, hpos, hk, hmin⟩ := onCycle_minimal (predPi s) v hv
  have hbound := piList_bound hpos hk hsupp
  apply fcOuter_complete (predPi s) n hsupp (piList (predPi s) v k₀)
    (piList_closed hpos hk) (piList_nodup hk hmin) hbound
  · intro x hx; exact List.mem_range.mp hx
  · intro c _; rfl
  · exact ⟨v, piList_mem_self hpos,
      List.mem_range.mpr (hbound v (piList_mem_self hpos))⟩
  · rw [ucount_nil, List.length_range]
    omega

lemma predPi_eq_some {s : NCF} {x u : Nat} {e : Edge}
    (h : s.pred x = some (u, e)) : predPi s x = some u := by
  unfold predPi
  rw [h]
  rfl

lemma predPi_some_inv {s : NCF} {x y : Nat} (h : predPi s x = some y) :
    ∃ e, s.pred x = some (y, e) := by
  unfold predPi at h
  cases hp : s.pred x with
  | none => rw [hp] at h; cases h
  | some p =>
    rw [hp] at h
    refine ⟨p.2, ?_⟩
    have : p.1 = y := by cases h; rfl
    rw [← this]

lemma cycle_list_aux_spec (g : Graph) (s : NCF) (handle : Nat)
    (hinv : ∀ v u e, s.pred v = some (u, e) →
      e ∈ g.edges ∧ e.src = u ∧ e.tgt = v) :
    ∀ (fuel j vtx : Nat), 0 < j → j ≤ fuel →
      piIter (predPi s) j vtx = some handle →
      (∀ i, 0 < i → i < j → piIter (predPi s) i vtx ≠ some handle) →
      (cycle_list_aux s.pred handle vtx fuel).length = j ∧
      IsWalk g handle vtx (cycle_list_aux s.pred handle vtx fuel).reverse ∧
      ∀ e ∈ cycle_list_aux s.pred handle vtx fuel,
        s.pred e.tgt = some (e.src, e) := by
  intro fuel
  induction fuel with
  | zero => intro j vtx hj hjf _ _; omega
  | succ fuel ih =>
    intro j vtx hj hjf hiter hminl
    obtain ⟨j', rfl⟩ : ∃ j', j = j' + 1 := ⟨j - 1, by omega⟩
    cases hp : s.pred vtx with
    | none =>
      exfalso
      have hπ : predPi s vtx = none := by unfold predPi; rw [hp]; rfl
      have : piIter (predPi s) (j' + 1) vtx = none := by
        show (match predPi s vtx with
          | none => none
          | some u => piIter (predPi s) j' u) = none
        rw [hπ]
      rw [this] at hiter
      cases hiter
    | some p =>
      obtain ⟨utx, e⟩ := p
      have hπ : predPi s vtx = some utx := predPi_eq_some hp
      obtain ⟨hemem, hesrc, hetgt⟩ := hinv vtx utx e hp
      have hstep : piIter (predPi s) (j' + 1) vtx = piIter (predPi s) j' utx := by
        show (match predPi s vtx with
          | none => none
          | some u => piIter (predPi s) j' u) = piIter (predPi s) j' utx
        rw [hπ]
      have hred : cycle_list_aux s.pred handle vtx (fuel + 1) =
          (if utx = handle then [e]
            else e :: cycle_list_aux s.pred handle utx fuel) := by
        show (match s.pred vtx with
          | none => []
          | some (utx, e) =>
            if utx = handle then [e]
            else e :: cycle_list_aux s.pred handle utx fuel) = _
        rw [hp]
      by_cases hu : utx = handle
      · -- the walk closes immediately, so the minimal period is 1
        have hj1 : j' + 1 = 1 := by
          by_contra hne
          have hj2 : 1 < j' + 1 := by omega
          apply hminl 1 (by omega) hj2
          show (match predPi s vtx with
            | none => none
            | some u => piIter (predPi s) 0 u) = some handle
          rw [hπ]
          show some utx = some handle
          rw [hu]
        rw [hred, if_pos hu]
        refine ⟨by simp [hj1], ?_, ?_⟩
        · show IsWalk g handle vtx [e]
          exact ⟨hemem, by rw [hesrc, hu], hetgt⟩
        · intro f hf
          rcases List.mem_cons.mp hf with rfl | hf'
          · rw [hetgt, hp, hesrc]
          · cases hf'
      · -- strictly shorter minimal walk from `utx`
        have hj2 : 1 < j' + 1 := by
          by_contra hne
          have : j' + 1 = 1 := by omega
          rw [this] at hiter
          have : piIter (predPi s) 1 vtx = some utx := by
            show (match predPi s vtx with
              | none => none
              | some u => piIter (predPi s) 0 u) = some utx
            rw [hπ]
            rfl
          rw [this] at hiter
          exact hu (by cases hiter; rfl)
        have hiter' : piIter (predPi s) j' utx = some handle := by
          rw [← hstep]; exact hiter
        have hminl' : ∀ i, 0 < i → i < j' →
            piIter (predPi s) i utx ≠ some handle := by
          intro i hi hij heq
          apply hminl (i + 1) (by omega) (by omega)
          show (match predPi s vtx with
            | none => none
            | some u => piIter (predPi s) i u) = some handle
          rw [hπ]
          exact heq
        obtain ⟨hlen, hwalk, harr⟩ := ih j' utx (by omega) (by omega) hiter' hminl'
        rw [hred, if_neg hu]
        refine ⟨by simp [hlen], ?_, ?_⟩
        · rw [List.reverse_cons]
          have hsnoc := isWalk_snoc hwalk hemem hesrc
          rw [hetgt] at hsnoc
          exact hsnoc
        · intro f hf
          rcases List.mem_cons.mp hf with rfl | hf'
          · rw [hetgt, hp, hesrc]
          · exact harr f hf'

lemma good_hsupp {g : Graph} {w : Edge → ℚ} {d0 : List ℚ} {s : NCF}
    (hwf : g.Wf) (hg : Good g w d0 s) :
    ∀ x y, predPi s x = some y → y < g.n := by
  intro x y h
  obtain ⟨e, he⟩ := predPi_some_inv h
  obtain ⟨hemem, hesrc, _⟩ := hg.inv x y e he
  rw [← hesrc]
  exact (hwf e hemem).1

/-- The cycle extracted by `cycle_list` from a node on a predecessor
cycle: nonempty, at most `n` edges, reads backwards as a closed walk, its
arrows are exactly predecessor arrows, and its total weight is strictly
negative. -/
lemma cycle_list_spec {g : Graph} {w : Edge → ℚ} {d0 : List ℚ} {s : NCF}
    (hwf : g.Wf) (hg : Good g w d0 s) (u : Nat)
    (hcyc : OnCycle (predPi s) u) :
    cycle_list g.n s u ≠ [] ∧ (cycle_list g.n s u).length ≤ g.n ∧
    IsWalk g u u (cycle_list g.n s u).reverse ∧
    (∀ e ∈ cycle_list g.n s u, s.pred e.tgt = some (e.src, e)) ∧
    (∀ e ∈ cycle_list g.n s u, e ∈ g.edges) ∧
    wsum w (cycle_list g.n s u) < 0 := by
  obtain ⟨k₀, hpos, hk, hmin⟩ := onCycle_minimal (predPi s) u hcyc
  have hsupp := good_hsupp hwf hg
  have hk₀n : k₀ ≤ g.n := by
    have hnd := piList_nodup hk hmin
    have hbd := piList_bound hpos hk hsupp
    have hsp : List.Subperm (piList (predPi s) u k₀) (List.range g.n) :=
      List.subperm_of_subset hnd
        (fun c hc => List.mem_range.mpr (hbd c hc))
    have := hsp.length_le
    rw [List.length_range] at this
    have hlen : (piList (predPi s) u k₀).length = k₀ := by
      unfold piList
      rw [List.length_map, List.length_range]
    omega
  have hinv : ∀ v x e, s.pred v = some (x, e) →
      e ∈ g.edges ∧ e.src = x ∧ e.tgt = v := by
    intro v x e h
    obtain ⟨h1, h2, h3, _⟩ := hg.inv v x e h
    exact ⟨h1, h2, h3⟩
  obtain ⟨hlen, hwalk, harr⟩ := cycle_list_aux_spec g s u hinv (g.n + 1) k₀ u
    hpos (by omega) hk hmin
  have hne : cycle_list g.n s u ≠ [] := by
    unfold cycle_list
    intro hnil
    rw [hnil] at hlen
    simp at hlen
    omega
  have hedges : ∀ e ∈ cycle_list g.n s u, e ∈ g.edges := by
    intro e he
    exact isWalk_mem_edges hwalk e (List.mem_reverse.mpr he)
  have hpc : PredCycle g s (cycle_list g.n s u) := ⟨hne, harr, u, hwalk⟩
  have hlen2 : (cycle_list g.n s u).length = k₀ := hlen
  exact ⟨hne, by rw [hlen2]; exact hk₀n, hwalk, harr, hedges, hg.neg _ hpc⟩

lemma relaxIter_len (g : Graph) (w : Edge → ℚ) (k : Nat) (s : NCF) :
    (relaxIter g w k s).dist.length = s.dist.length := by
  induction k generalizing s with
  | zero => rfl
  | succ k ih =>
    show (relaxIter g w k (relax g w s).1).dist.length = _
    rw [ih, relax_len]

lemma relaxIter_dist_le (g : Graph) (w : Edge → ℚ) (k : Nat) (s : NCF)
    (v : Nat) : dget (relaxIter g w k s).dist v ≤ dget s.dist v := by
  induction k generalizing s with
  | zero => exact le_refl _
  | succ k ih =>
    calc dget (relaxIter g w k (relax g w s).1).dist v
        ≤ dget (relax g w s).1.dist v := ih _
      _ ≤ dget s.dist v := relax_dist_le g w s v

lemma good_relaxIter (g : Graph) (w : Edge → ℚ) (d0 : List ℚ) (hwf : g.Wf)
    (k : Nat) (s : NCF) (hg : Good g w d0 s) :
    Good g w d0 (relaxIter g w k s) := by
  induction k generalizing s with
  | zero => exact hg
  | succ k ih => exact ih _ (good_relax g w d0 hwf s hg)

/-- After `k` passes, the distance of `v` is bounded by any walk into `v`
of at most `k` edges. -/
lemma relaxIter_upper (g : Graph) (w : Edge → ℚ) (hwf : g.Wf) :
    ∀ (k : Nat) (s : NCF), s.dist.length = g.n →
      ∀ (u v : Nat) (W : List Edge), IsWalk g u v W → W.length ≤ k →
        dget (relaxIter g w k s).dist v ≤ dget s.dist u + wsum w W := by
  intro k
  induction k with
  | zero =>
    intro s _ u v W hW hlen
    have : W = [] := List.length_eq_zero.mp (Nat.le_zero.mp hlen)
    subst this
    cases hW
    simp [relaxIter, wsum_nil]
  | succ k ih =>
    intro s hslen u v W hW hlen
    cases W with
    | nil =>
      cases hW
      calc dget (relaxIter g w (k + 1) s).dist u
          ≤ dget s.dist u := relaxIter_dist_le g w (k + 1) s u
        _ ≤ dget s.dist u + wsum w [] := by simp [wsum_nil]
    | cons e W' =>
      obtain ⟨hemem, hesrc, hrest⟩ := hW
      have h1 : dget (relax g w s).1.dist e.tgt ≤ dget s.dist e.src + w e :=
        relax_edge_bound g w s hslen hwf e hemem
      have h2 := ih (relax g w s).1 (by rw [relax_len]; exact hslen)
        e.tgt v W' hrest (by simpa using hlen)
      show dget (relaxIter g w k (relax g w s).1).dist v ≤ _
      rw [hesrc] at h1
      calc dget (relaxIter g w k (relax g w s).1).dist v
          ≤ dget (relax g w s).1.dist e.tgt + wsum w W' := h2
        _ ≤ (dget s.dist u + w e) + wsum w W' := by linarith
        _ = dget s.dist u + wsum w (e :: W') := by rw [wsum_cons]; ring

/-- Removing nonnegative closed sub-walks: every walk can be reduced to a
walk with pairwise distinct nodes, of no larger weight, over the same
node set.  The predicate `R` tracks reachability of the basepoints of the
removed closed sub-walks. -/
lemma walk_reduce (g : Graph) (w : Edge → ℚ) (R : Nat → Prop)
    (hR : ∀ x e, e ∈ g.edges → e.src = x → R x → R e.tgt)
    (hcyc : ∀ z c, R z → c ≠ [] → IsWalk g z z c → 0 ≤ wsum w c) :
    ∀ (L : Nat) (u v : Nat) (W : List Edge), W.length ≤ L → IsWalk g u v W →
      R u →
      ∃ W', IsWalk g u v W' ∧ wsum w W' ≤ wsum w W ∧
        (wnodes u W').Nodup ∧ (∀ x ∈ wnodes u W', x ∈ wnodes u W) := by
  intro L
  induction L with
  | zero =>
    intro u v W hlen hW hRu
    have : W = [] := List.length_eq_zero.mp (Nat.le_zero.mp hlen)
    subst this
    cases hW
    exact ⟨[], rfl, le_refl _, by simp [wnodes], by simp⟩
  | succ L ih =>
    intro u v W hlen hW hRu
    by_cases hmem : u ∈ W.map (·.tgt)
    · -- `u` recurs: cut out the closed prefix, which is nonnegative
      obtain ⟨e', he'W, he'tgt⟩ := List.mem_map.mp hmem
      obtain ⟨X, Y, hXY⟩ := List.append_of_mem he'W
      have hW2 : IsWalk g u v ((X ++ [e']) ++ Y) := by
        rw [hXY] at hW
        simpa using hW
      obtain ⟨m, hB, hY⟩ := isWalk_append_split hW2
      have hmu : m = u := by
        rw [isWalk_snoc_tgt hB, he'tgt]
      rw [hmu] at hB hY
      have hYlen : Y.length ≤ L := by
        rw [hXY] at hlen
        simp at hlen
        omega
      obtain ⟨W', hW', hle, hnd, hsub⟩ := ih u v Y hYlen hY hRu
      refine ⟨W', hW', ?_, hnd, ?_⟩
      · have hBpos : 0 ≤ wsum w (X ++ [e']) :=
          hcyc u (X ++ [e']) hRu (by simp) hB
        have : wsum w W = wsum w (X ++ [e']) + wsum w Y := by
          rw [hXY]
          rw [show X ++ e' :: Y = (X ++ [e']) ++ Y by simp]
          exact wsum_append w _ _
        rw [this]
        linarith
      · intro x hx
        have hxy := hsub x hx
        unfold wnodes at hxy ⊢
        rcases List.mem_cons.mp hxy with rfl | hxy'
        · exact List.mem_cons_self _ _
        · apply List.mem_cons_of_mem
          rw [hXY]
          simp only [List.map_append, List.map_cons]
          exact List.mem_append_right _ (List.mem_cons_of_mem _ hxy')
    · cases W with
      | nil =>
        cases hW
        exact ⟨[], rfl, le_refl _, by simp [wnodes], by simp⟩
      | cons e W2 =>
        obtain ⟨hemem, hesrc, hrest⟩ := hW
        have hRt : R e.tgt := hR u e hemem hesrc hRu
        obtain ⟨W2', hW2', hle, hnd, hsub⟩ := ih e.tgt v W2
          (by simpa using hlen) hrest hRt
        refine ⟨e :: W2', ⟨hemem, hesrc, hW2'⟩, ?_, ?_, ?_⟩
        · rw [wsum_cons, wsum_cons]
          linarith
        · show (u :: (e :: W2').map (·.tgt)).Nodup
          rw [List.nodup_cons]
          constructor
          · intro hu
            apply hmem
            simp only [List.map_cons] at hu
            have : u ∈ wnodes e.tgt W2 := by
              rcases List.mem_cons.mp hu with rfl | hu'
              · exact List.mem_cons_self _ _
              · exact hsub u (by
                  unfold wnodes
                  exact List.mem_cons_of_mem _ hu')
            unfold wnodes at this
            simpa using this
          · exact hnd
        · intro x hx
          unfold wnodes at hx ⊢
          rcases List.mem_cons.mp hx with rfl | hx'
          · exact List.mem_cons_self _ _
          · simp only [List.map_cons] at hx' ⊢
            rcases List.mem_cons.mp hx' with rfl | hx2
            · exact List.mem_cons_of_mem _ (List.mem_cons_self _ _)
            · have := hsub x (by
                unfold wnodes
                exact List.mem_cons_of_mem _ hx2)
              unfold wnodes at this
              rcases List.mem_cons.mp this with rfl | h3
              · exact List.mem_cons_of_mem _ (List.mem_cons_self _ _)
              · exact List.mem_cons_of_mem _ (List.mem_cons_of_mem _ h3)

/-- A walk with pairwise distinct nodes has fewer than `n` edges. -/
lemma nodup_walk_length (g : Graph) (hwf : g.Wf) (u v : Nat) (W : List Edge)
    (hW : IsWalk g u v W) (hun : u < g.n) (hnd : (wnodes u W).Nodup) :
    W.length + 1 ≤ g.n := by
  have hbd : ∀ x ∈ wnodes u W, x < g.n := by
    intro x hx
    unfold wnodes at hx
    rcases List.mem_cons.mp hx with rfl | hx'
    · exact hun
    · obtain ⟨e, heW, rfl⟩ := List.mem_map.mp hx'
      exact (hwf e (isWalk_mem_edges hW e heW)).2
  have hsp : List.Subperm (wnodes u W) (List.range g.n) :=
    List.subperm_of_subset hnd (fun x hx => List.mem_range.mpr (hbd x hx))
  have := hsp.length_le
  rw [List.length_range] at this
  unfold wnodes at this
  simpa using this

/-- At a relaxation fixpoint, distances are bounded along any walk. -/
lemma fixpoint_walk_bound (g : Graph) (w : Edge → ℚ) (d : List ℚ)
    (hfix : ∀ e ∈ g.edges, dget d e.tgt ≤ dget d e.src + w e) :
    ∀ (u v : Nat) (W : List Edge), IsWalk g u v W →
      dget d v ≤ dget d u + wsum w W := by
  intro u v W
  induction W generalizing u with
  | nil => intro hW; cases hW; simp [wsum_nil]
  | cons e W' ih =>
    intro hW
    obtain ⟨hemem, hesrc, hrest⟩ := hW
    have h1 := hfix e hemem
    have h2 := ih e.tgt hrest
    rw [hesrc] at h1
    rw [wsum_cons]
    linarith

/-- A relaxation fixpoint certifies the absence of negative cycles. -/
lemma fixpoint_no_negCycle (g : Graph) (w : Edge → ℚ) (d : List ℚ)
    (hfix : ∀ e ∈ g.edges, dget d e.tgt ≤ dget d e.src + w e) :
    ¬ hasNegCycle g w := by
  rintro ⟨u, c, hne, hW, hneg⟩
  have := fixpoint_walk_bound g w d hfix u u c hW
  linarith

/-- Conversely, `relax` reports no change exactly on fixpoints. -/
lemma relax_of_fixpoint (g : Graph) (w : Edge → ℚ) (s : NCF)
    (hfix : ∀ e ∈ g.edges, dget s.dist e.tgt ≤ dget s.dist e.src + w e) :
    relax g w s = (s, false) := by
  unfold relax
  have key : ∀ (l : List Edge), (∀ e ∈ l, e ∈ g.edges) →
      l.foldl (relaxEdge w) (s, false) = (s, false) := by
    intro l
    induction l with
    | nil => intro _; rfl
    | cons e t ih =>
      intro hl
      rw [List.foldl_cons]
      have hstep : relaxEdge w (s, false) e = (s, false) := by
        unfold relaxEdge
        rw [if_neg]
        push_neg
        exact hfix e (hl e (List.mem_cons_self e t))
      rw [hstep]
      exact ih (fun f hf => hl f (List.mem_cons_of_mem e hf))
  exact key g.edges (fun _ h => h)

/-- With no negative cycle, the relaxation reaches a fixpoint after at
most `n` passes. -/
lemma relaxIter_fixpoint (g : Graph) (w : Edge → ℚ) (hwf : g.Wf)
    (d0 : List ℚ) (s : NCF) (hg : Good g w d0 s) (hs0 : s.dist = d0)
    (hnc : ¬ hasNegCycle g w) (k : Nat) (hk : g.n ≤ k + 1) :
    ∀ e ∈ g.edges, dget (relaxIter g w k s).dist e.tgt ≤
      dget (relaxIter g w k s).dist e.src + w e := by
  intro e hemem
  by_contra hlt
  push_neg at hlt
  set t := relaxIter g w k s with ht
  have hgt : Good g w d0 t := good_relaxIter g w d0 hwf k s hg
  -- the source's value is achieved by some walk
  obtain ⟨u, W, hW, hval⟩ := hgt.ach e.src
  -- extend by `e` and reduce to a short walk
  have hcyc0 : ∀ z c, True → c ≠ [] → IsWalk g z z c → 0 ≤ wsum w c := by
    intro z c _ hne hWz
    by_contra hneg
    push_neg at hneg
    exact hnc ⟨z, c, hne, hWz, hneg⟩
  have hWe : IsWalk g u e.tgt (W ++ [e]) := isWalk_snoc hW hemem rfl
  obtain ⟨W', hW', hle, hnd, _⟩ := walk_reduce g w (fun _ => True)
    (fun _ _ _ _ _ => trivial) hcyc0 (W ++ [e]).length u e.tgt (W ++ [e])
    (le_refl _) hWe trivial
  have hun : u < g.n := by
    cases W with
    | nil =>
      cases hW
      exact (hwf e hemem).1
    | cons f W2 =>
      exact isWalk_src_lt hwf hW (by simp)
  have hshort : W'.length + 1 ≤ g.n := nodup_walk_length g hwf u e.tgt W' hW' hun hnd
  have hupper := relaxIter_upper g w hwf k s hg.len u e.tgt W' hW' (by omega)
  rw [← ht, hs0] at hupper
  have hWsum : wsum w (W ++ [e]) = wsum w W + w e := by
    rw [wsum_append, wsum_cons, wsum_nil]; ring
  rw [hWsum] at hle
  linarith

lemma howardF_succ (g : Graph) (w : Edge → ℚ) (fuel : Nat) (s : NCF) :
    howardF g w (fuel + 1) s =
    if (relax g w s).2 then
      match find_cycle g.n (relax g w s).1 with
      | some vtx =>
        (some (some (cycle_list g.n (relax g w s).1 vtx)), (relax g w s).1)
      | none => howardF g w fuel (relax g w s).1
    else (some none, (relax g w s).1) := rfl

/-- Soundness of a `Some(cycle)` result of `howard`'s loop: the returned
edge list is a nonempty simple predecessor cycle (closed walk when read
backwards) of strictly negative total weight, and the invariant still
holds in the final state with the cycle's arrows recorded. -/
lemma howardF_some_sound (g : Graph) (w : Edge → ℚ) (d0 : List ℚ)
    (hwf : g.Wf) :
    ∀ (fuel : Nat) (s : NCF), Good g w d0 s →
      ∀ c s', howardF g w fuel s = (some (some c), s') →
        c ≠ [] ∧ c.length ≤ g.n ∧ (∃ z, IsWalk g z z c.reverse) ∧
        (∀ e ∈ c, e ∈ g.edges) ∧ wsum w c < 0 ∧ Good g w d0 s' ∧
        (∀ e ∈ c, s'.pred e.tgt = some (e.src, e)) := by
  intro fuel
  induction fuel with
  | zero =>
    intro s _ c s' h
    rw [show howardF g w 0 s = (none, s) from rfl] at h
    cases h
  | succ fuel ih =>
    intro s hg c s' h
    rw [howardF_succ] at h
    have hg1 : Good g w d0 (relax g w s).1 := good_relax g w d0 hwf s hg
    by_cases hch : (relax g w s).2 = true
    · rw [if_pos hch] at h
      cases hfc : find_cycle g.n (relax g w s).1 with
      | some vtx =>
        rw [hfc] at h
        simp only [Prod.mk.injEq, Option.some.injEq] at h
        obtain ⟨hc, hs'⟩ := h
        have hoc := find_cycle_sound g.n (relax g w s).1 vtx hfc
        obtain ⟨hne, hlen, hwalk, harr, hedges, hneg⟩ :=
          cycle_list_spec hwf hg1 vtx hoc
        subst hc
        subst hs'
        exact ⟨hne, hlen, ⟨vtx, hwalk⟩, hedges, hneg, hg1, harr⟩
      | none =>
        rw [hfc] at h
        exact ih (relax g w s).1 hg1 c s' h
    · rw [if_neg hch] at h
      cases h

/-- Soundness of a `None` result: the loop only returns `None` from a
relaxation fixpoint, which certifies that no negative cycle exists. -/
lemma howardF_none_sound (g : Graph) (w : Edge → ℚ) :
    ∀ (fuel : Nat) (s : NCF) (s' : NCF),
      howardF g w fuel s = (some none, s') → ¬ hasNegCycle g w := by
  intro fuel
  induction fuel with
  | zero =>
    intro s s' h
    rw [show howardF g w 0 s = (none, s) from rfl] at h
    cases h
  | succ fuel ih =>
    intro s s' h
    rw [howardF_succ] at h
    by_cases hch : (relax g w s).2 = true
    · rw [if_pos hch] at h
      cases hfc : find_cycle g.n (relax g w s).1 with
      | some vtx =>
        rw [hfc] at h
        cases h
      | none =>
        rw [hfc] at h
        exact ih (relax g w s).1 s' h
    · have hch' : (relax g w s).2 = false := by
        cases hb : (relax g w s).2
        · rfl
        · exact absurd hb hch
      exact fixpoint_no_negCycle g w s.dist (relax_false_fixpoint g w s hch')

lemma relaxIter_succ_right (g : Graph) (w : Edge → ℚ) (j : Nat) (s : NCF) :
    relaxIter g w (j + 1) s = (relax g w (relaxIter g w j s)).1 := by
  induction j generalizing s with
  | zero => rfl
  | succ j ih =>
    show relaxIter g w (j + 1) (relax g w s).1 = _
    rw [ih]
    rfl

/-- With no negative cycle, the loop reaches its fixpoint and returns
`None` within the fuel budget. -/
lemma howardF_complete_none (g : Graph) (w : Edge → ℚ) (d0 : List ℚ)
    (hwf : g.Wf) (s : NCF) (hg : Good g w d0 s) (hs0 : s.dist = d0)
    (hnc : ¬ hasNegCycle g w) :
    ∀ (fuel j : Nat), 0 < fuel → g.n ≤ j + fuel →
      (howardF g w fuel (relaxIter g w j s)).1 = some none := by
  intro fuel
  induction fuel with
  | zero => intro j h0 _; omega
  | succ fuel ih =>
    intro j _ hbound
    rw [howardF_succ]
    by_cases hch : (relax g w (relaxIter g w j s)).2 = true
    case neg =>
      rw [if_neg hch]
    case pos =>
      rw [if_pos hch]
      have hffuel : 0 < fuel := by
        by_contra hf0
        have hf : fuel = 0 := by omega
        -- with no fuel left the bound forces a fixpoint already at `j`
        have hfix := relaxIter_fixpoint g w hwf d0 s hg hs0 hnc j (by omega)
        have := relax_of_fixpoint g w (relaxIter g w j s) hfix
        rw [this] at hch
        cases hch
      cases hfc : find_cycle g.n (relax g w (relaxIter g w j s)).1 with
      | some vtx =>
        exfalso
        have hg1 : Good g w d0 (relax g w (relaxIter g w j s)).1 :=
          good_relax g w d0 hwf _ (good_relaxIter g w d0 hwf j s hg)
        have hoc := find_cycle_sound g.n _ vtx hfc
        obtain ⟨hne, _, hwalk, _, _, hneg⟩ := cycle_list_spec hwf hg1 vtx hoc
        apply hnc
        refine ⟨vtx, (cycle_list g.n (relax g w (relaxIter g w j s)).1 vtx).reverse,
          ?_, hwalk, ?_⟩
        · simpa using hne
        · rw [wsum_reverse]
          exact hneg
      | none =>
        have := ih (j + 1) hffuel (by omega)
        rw [relaxIter_succ_right] at this
        exact this

lemma nrep_walk (g : Graph) {u : Nat} {c : List Edge} (h : IsWalk g u u c) :
    ∀ m, IsWalk g u u (nrep m c) := by
  intro m
  induction m with
  | zero => rfl
  | succ m ih => exact isWalk_append h ih

lemma nrep_wsum (w : Edge → ℚ) (c : List Edge) (m : Nat) :
    wsum w (nrep m c) = (m : ℚ) * wsum w c := by
  induction m with
  | zero => simp [nrep, wsum_nil]
  | succ m ih =>
    show wsum w (c ++ nrep m c) = _
    rw [wsum_append, ih]
    push_cast
    ring

lemma nrep_length (c : List Edge) (m : Nat) :
    (nrep m c).length = m * c.length := by
  induction m with
  | zero => simp [nrep]
  | succ m ih =>
    show (c ++ nrep m c).length = _
    rw [List.length_append, ih]
    ring

lemma foldr_min_le_zero (l : List ℚ) : l.foldr min 0 ≤ 0 := by
  induction l with
  | nil => exact le_refl _
  | cons x t ih => exact le_trans (min_le_right x _) ih

lemma foldr_min_le (l : List ℚ) : ∀ x ∈ l, l.foldr min 0 ≤ x := by
  induction l with
  | nil => intro x hx; cases hx
  | cons y t ih =>
    intro x hx
    rcases List.mem_cons.mp hx with rfl | hx'
    · exact min_le_left x _
    · exact le_trans (min_le_right y _) (ih x hx')

/-- In an acyclic functional map every chain reaches a root within `n`
steps. -/
lemma acyclic_chain (π : Nat → Option Nat) (n : Nat)
    (hsupp : ∀ x y, π x = some y → y < n)
    (hacyc : ∀ v, ¬ OnCycle π v) (v : Nat) (hv : v < n) :
    ∃ j r, j ≤ n ∧ piIter π j v = some r ∧ π r = none := by
  by_cases hnone : ∃ j, j ≤ n ∧ piIter π j v = none
  · have hex : ∃ j, piIter π j v = none := by
      obtain ⟨j, _, hj⟩ := hnone
      exact ⟨j, hj⟩
    set j₀ := Nat.find hex with hj₀
    have hspec : piIter π j₀ v = none := Nat.find_spec hex
    have hpos : 0 < j₀ := by
      rcases Nat.eq_zero_or_pos j₀ with h0 | h
      · rw [h0] at hspec; cases hspec
      · exact h
    have hprev : (piIter π (j₀ - 1) v).isSome := by
      cases hp : piIter π (j₀ - 1) v with
      | none => exact absurd hp (Nat.find_min hex (by omega))
      | some r => rfl
    obtain ⟨r, hr⟩ := Option.isSome_iff_exists.mp hprev
    have hπr : π r = none := by
      have hdecomp : piIter π ((j₀ - 1) + 1) v = π r := by
        rw [piIter_succ_right, hr]
      have : (j₀ - 1) + 1 = j₀ := by omega
      rw [this, hspec] at hdecomp
      exact hdecomp.symm
    refine ⟨j₀ - 1, r, ?_, hr, hπr⟩
    obtain ⟨j, hjn, hj⟩ := hnone
    have := Nat.find_min' hex hj
    omega
  · push_neg at hnone
    exfalso
    set f : Nat → Nat := fun i => (piIter π i v).getD 0 with hf
    have hdef : ∀ i ≤ n, ∃ x, piIter π i v = some x := by
      intro i hi
      cases hx : piIter π i v with
      | none => exact absurd hx (hnone i hi)
      | some x => exact ⟨x, rfl⟩
    have hbd : ∀ i ∈ List.range (n + 1), f i < n := by
      intro i hi
      have hin : i ≤ n := by
        have := List.mem_range.mp hi
        omega
      obtain ⟨x, hx⟩ := hdef i hin
      rw [hf]
      simp only [hx, Option.getD_some]
      cases i with
      | zero => cases hx; exact hv
      | succ i' =>
        rw [piIter_succ_right] at hx
        cases hp : piIter π i' v with
        | none => rw [hp] at hx; cases hx
        | some y =>
          rw [hp] at hx
          exact hsupp y x hx
    have hnotnd : ¬ ((List.range (n + 1)).map f).Nodup := by
      intro hnd
      have hsp : List.Subperm ((List.range (n + 1)).map f) (List.range n) :=
        List.subperm_of_subset hnd (by
          intro x hx
          obtain ⟨i, hi, rfl⟩ := List.mem_map.mp hx
          exact List.mem_range.mpr (hbd i hi))
      have := hsp.length_le
      simp [List.length_map, List.length_range] at this
    have hninj : ¬ (∀ i ∈ List.range (n + 1), ∀ j ∈ List.range (n + 1),
        f i = f j → i = j) := by
      intro hinj
      exact hnotnd (List.Nodup.map_on hinj (List.nodup_range (n + 1)))
    push_neg at hninj
    obtain ⟨i, hi, j, hj, hfij, hij⟩ := hninj
    have key : ∀ a b : Nat, a < b → b ≤ n → f a = f b → False := by
      intro a b hab hbn hfab
      obtain ⟨x, hx⟩ := hdef a (by omega)
      obtain ⟨y, hy⟩ := hdef b hbn
      have hxy : x = y := by
        rw [hf] at hfab
        simp only [hx, hy, Option.getD_some] at hfab
        exact hfab
      subst hxy
      have hsplit := piIter_split π (Nat.le_of_lt hab) hx
      rw [hy] at hsplit
      exact hacyc x ⟨b - a, by omega, hsplit.symm⟩
    have hin : i ≤ n := by have := List.mem_range.mp hi; omega
    have hjn : j ≤ n := by have := List.mem_range.mp hj; omega
    rcases lt_trichotomy i j with h | h | h
    · exact key i j h hjn hfij
    · exact hij h
    · exact key j i h hin hfij.symm

/-- Lower bound on all distances while the predecessor map is acyclic. -/
lemma acyclic_lower (g : Graph) (w : Edge → ℚ) (d0 : List ℚ) (hwf : g.Wf)
    (t : NCF) (hg : Good g w d0 t)
    (hacyc : ∀ v, ¬ OnCycle (predPi t) v) :
    ∀ v, v < g.n →
      ((List.range g.n).map (dget d0)).foldr min 0 +
        (g.n : ℚ) * ((g.edges.map w).foldr min 0) ≤ dget t.dist v := by
  intro v hv
  set wmin : ℚ := (g.edges.map w).foldr min 0 with hwmin
  set dmin : ℚ := ((List.range g.n).map (dget d0)).foldr min 0 with hdmin
  have hwmin0 : wmin ≤ 0 := foldr_min_le_zero _
  obtain ⟨j, r, hjn, hiter, hroot⟩ := acyclic_chain (predPi t) g.n
    (good_hsupp hwf hg) hacyc v hv
  -- telescope the invariant along the chain to the root
  have chain : ∀ (j' v' : Nat), piIter (predPi t) j' v' = some r →
      dget d0 r + (j' : ℚ) * wmin ≤ dget t.dist v' := by
    intro j'
    induction j' with
    | zero =>
      intro v' hit
      have hvr : v' = r := by cases hit; rfl
      subst hvr
      have hpred : t.pred v' = none := by
        unfold predPi at hroot
        cases hp : t.pred v' with
        | none => rfl
        | some p => rw [hp] at hroot; cases hroot
      rw [hg.root v' hpred]
      simp
    | succ j' ih =>
      intro v' hit
      have hstep : ∃ x, predPi t v' = some x ∧ piIter (predPi t) j' x = some r := by
        cases hp : predPi t v' with
        | none =>
          exfalso
          have : piIter (predPi t) (j' + 1) v' = none := by
            show (match predPi t v' with
              | none => none
              | some u => piIter (predPi t) j' u) = none
            rw [hp]
          rw [this] at hit
          cases hit
        | some x =>
          refine ⟨x, rfl, ?_⟩
          have : piIter (predPi t) (j' + 1) v' = piIter (predPi t) j' x := by
            show (match predPi t v' with
              | none => none
              | some u => piIter (predPi t) j' u) = piIter (predPi t) j' x
            rw [hp]
          rw [← this]
          exact hit
      obtain ⟨x, hx, hxr⟩ := hstep
      obtain ⟨e, he⟩ := predPi_some_inv hx
      obtain ⟨hemem, hesrc, hetgt, hrel⟩ := hg.inv v' x e he
      have hwe : wmin ≤ w e := foldr_min_le _ (w e) (List.mem_map_of_mem w hemem)
      have hih := ih x hxr
      push_cast
      linarith
  have hchain := chain j v hiter
  have hrn : r < g.n := by
    cases j with
    | zero => cases hiter; exact hv
    | succ j' =>
      rw [piIter_succ_right] at hiter
      cases hp : piIter (predPi t) j' v with
      | none => rw [hp] at hiter; cases hiter
      | some y =>
        rw [hp] at hiter
        exact good_hsupp hwf hg y r hiter
  have hdminr : dmin ≤ dget d0 r := by
    apply foldr_min_le
    exact List.mem_map_of_mem _ (List.mem_range.mpr hrn)
  have hjq : (j : ℚ) ≤ (g.n : ℚ) := by exact_mod_cast hjn
  have hmul : (g.n : ℚ) * wmin ≤ (j : ℚ) * wmin := by
    apply mul_le_mul_of_nonpos_right hjq hwmin0
  linarith

/-- If the fuel runs out, the final state is exactly `fuel` passes, and
the last cycle check came back empty. -/
lemma howardF_none_state (g : Graph) (w : Edge → ℚ) :
    ∀ (fuel : Nat) (s : NCF), (howardF g w fuel s).1 = none →
      (howardF g w fuel s).2 = relaxIter g w fuel s ∧
      (0 < fuel → find_cycle g.n (relaxIter g w fuel s) = none) := by
  intro fuel
  induction fuel with
  | zero => intro s _; exact ⟨rfl, by omega⟩
  | succ fuel ih =>
    intro s h
    by_cases hch : (relax g w s).2 = true
    case neg =>
      have hred : howardF g w (fuel + 1) s = (some none, (relax g w s).1) := by
        rw [howardF_succ, if_neg hch]
      rw [hred] at h
      cases h
    case pos =>
      cases hfc : find_cycle g.n (relax g w s).1 with
      | some vtx =>
        have hred : howardF g w (fuel + 1) s =
            (some (some (cycle_list g.n (relax g w s).1 vtx)), (relax g w s).1) := by
          rw [howardF_succ, if_pos hch]
          simp only [hfc]
        rw [hred] at h
        cases h
      | none =>
        have hred : howardF g w (fuel + 1) s = howardF g w fuel (relax g w s).1 := by
          rw [howardF_succ, if_pos hch]
          simp only [hfc]
        rw [hred] at h
        obtain ⟨h1, h2⟩ := ih (relax g w s).1 h
        rw [hred]
        refine ⟨by rw [h1]; rfl, ?_⟩
        intro _
        rcases Nat.eq_zero_or_pos fuel with h0 | hpos
        · subst h0
          exact hfc
        · exact h2 hpos

/-- With a negative cycle present, `howard`'s loop cannot run forever:
for a sufficiently large fuel it reports a cycle. -/
lemma howardF_fires (g : Graph) (w : Edge → ℚ) (d0 : List ℚ) (hwf : g.Wf)
    (s : NCF) (hg : Good g w d0 s) (hs0 : s.dist = d0)
    (hneg : hasNegCycle g w) :
    ∃ fuel c s', howardF g w fuel s = (some (some c), s') := by
  obtain ⟨u₀, C, hne, hWC, hnegC⟩ := hneg
  have hu₀ : u₀ < g.n := isWalk_src_lt hwf hWC hne
  set wmin : ℚ := (g.edges.map w).foldr min 0 with hwmin
  set dmin : ℚ := ((List.range g.n).map (dget d0)).foldr min 0 with hdmin
  set B : ℚ := dmin + (g.n : ℚ) * wmin with hB
  set wC : ℚ := wsum w C with hwC
  obtain ⟨m₀, hm₀⟩ := exists_nat_gt ((dget d0 u₀ - B) / (-wC))
  set m : Nat := m₀ + 1 with hm
  have hmgt : (dget d0 u₀ - B) / (-wC) < (m : ℚ) := by
    have : (m₀ : ℚ) ≤ (m : ℚ) := by exact_mod_cast Nat.le_succ m₀
    linarith
  have hkey : dget d0 u₀ + (m : ℚ) * wC < B := by
    have hpos : (0 : ℚ) < -wC := by linarith
    have := (div_lt_iff hpos).mp hmgt
    linarith
  set fuel : Nat := m * C.length with hfuel
  have hfuelpos : 0 < fuel := by
    rw [hfuel, hm]
    have : 0 < C.length := List.length_pos.mpr hne
    positivity
  cases hres : (howardF g w fuel s).1 with
  | none =>
    exfalso
    obtain ⟨hstate, hfc⟩ := howardF_none_state g w fuel s hres
    set t := relaxIter g w fuel s with ht
    have hgt : Good g w d0 t := good_relaxIter g w d0 hwf fuel s hg
    have hacyc : ∀ v, ¬ OnCycle (predPi t) v := by
      intro v hv
      obtain ⟨u, hu⟩ := find_cycle_complete g.n t (good_hsupp hwf hgt) v hv
      rw [hfc hfuelpos] at hu
      cases hu
    have hlow := acyclic_lower g w d0 hwf t hgt hacyc u₀ hu₀
    have hup : dget t.dist u₀ ≤ dget s.dist u₀ + wsum w (nrep m C) := by
      rw [ht]
      apply relaxIter_upper g w hwf fuel s hg.len u₀ u₀ (nrep m C)
        (nrep_walk g hWC m)
      rw [nrep_length]
    rw [hs0, nrep_wsum] at hup
    rw [← hdmin, ← hwmin, ← hB] at hlow
    rw [← hwC] at hup
    linarith
  | some res =>
    cases res with
    | none =>
      exfalso
      have hpair : howardF g w fuel s = (some none, (howardF g w fuel s).2) :=
        Prod.ext hres rfl
      exact (howardF_none_sound g w fuel s _ hpair) ⟨u₀, C, hne, hWC, hnegC⟩
    | some c =>
      exact ⟨fuel, c, (howardF g w fuel s).2, Prod.ext hres rfl⟩

/-- The check `is_negative` holds as soon as some collected cycle edge is violated. -/
lemma is_negative_aux_of_mem (s : NCF) (w : Edge → ℚ) (handle : Nat)
    (hshape : ∀ v u e, s.pred v = some (u, e) → e.src = u ∧ e.tgt = v) :
    ∀ (fuel vtx : Nat) (e : Edge),
      e ∈ cycle_list_aux s.pred handle vtx fuel →
      dget s.dist e.src + w e < dget s.dist e.tgt →
      is_negative_aux s.pred s.dist w handle vtx fuel = true := by
  intro fuel
  induction fuel with
  | zero => intro vtx e he _; cases he
  | succ fuel ih =>
    intro vtx e he hviol
    cases hp : s.pred vtx with
    | none =>
      exfalso
      have : cycle_list_aux s.pred handle vtx (fuel + 1) = [] := by
        show (match s.pred vtx with
          | none => []
          | some (utx, e) => if utx = handle then [e]
            else e :: cycle_list_aux s.pred handle utx fuel) = []
        rw [hp]
      rw [this] at he
      cases he
    | some p =>
      obtain ⟨utx, e₀⟩ := p
      obtain ⟨hsrc, htgt⟩ := hshape vtx utx e₀ hp
      have hlist : cycle_list_aux s.pred handle vtx (fuel + 1) =
          (if utx = handle then [e₀]
            else e₀ :: cycle_list_aux s.pred handle utx fuel) := by
        show (match s.pred vtx with
          | none => []
          | some (utx, e) => if utx = handle then [e]
            else e :: cycle_list_aux s.pred handle utx fuel) = _
        rw [hp]
      have hneg : is_negative_aux s.pred s.dist w handle vtx (fuel + 1) =
          (if dget s.dist utx + w e₀ < dget s.dist vtx then true
            else if utx = handle then false
            else is_negative_aux s.pred s.dist w handle utx fuel) := by
        show (match s.pred vtx with
          | none => false
          | some (utx, e) =>
            if dget s.dist utx + w e < dget s.dist vtx then true
            else if utx = handle then false
            else is_negative_aux s.pred s.dist w handle utx fuel) = _
        rw [hp]
      rw [hlist] at he
      rw [hneg]
      by_cases hc : dget s.dist utx + w e₀ < dget s.dist vtx
      · rw [if_pos hc]
      · rw [if_neg hc]
        by_cases hu : utx = handle
        · rw [if_pos hu] at he
          exfalso
          rcases List.mem_cons.mp he with rfl | he'
          · rw [hsrc, htgt] at hviol
            exact hc hviol
          · cases he'
        · rw [if_neg hu] at he
          rw [if_neg hu]
          rcases List.mem_cons.mp he with rfl | he'
          · exfalso
            rw [hsrc, htgt] at hviol
            exact hc hviol
          · exact ih utx e he' hviol

lemma list_sum_nonpos (l : List ℚ) (h : ∀ x ∈ l, x ≤ 0) : l.sum ≤ 0 := by
  induction l with
  | nil => simp
  | cons x t ih =>
    rw [List.sum_cons]
    have h1 := h x (List.mem_cons_self x t)
    have h2 := ih (fun y hy => h y (List.mem_cons_of_mem x hy))
    linarith

/-- On a negative predecessor cycle, some edge is strictly violated. -/
lemma neg_predCycle_violated (g : Graph) (w : Edge → ℚ) (d0 : List ℚ)
    (s : NCF) (hg : Good g w d0 s) (c : List Edge) (hne : c ≠ [])
    (harr : ∀ e ∈ c, s.pred e.tgt = some (e.src, e))
    (hwalk : ∃ z, IsWalk g z z c.reverse) (hneg : wsum w c < 0) :
    ∃ e ∈ c, dget s.dist e.src + w e < dget s.dist e.tgt := by
  by_contra hnone
  push_neg at hnone
  -- then every telescoping term is nonpositive, yet their sum is `-wsum`
  obtain ⟨z, hz⟩ := hwalk
  have htel : (c.map fun f => dget s.dist f.tgt - dget s.dist f.src).sum = 0 := by
    have h1 := closed_telescope g (fun x => dget s.dist x) hz
    rw [List.map_reverse, List.sum_reverse] at h1
    exact h1
  have hsum : (c.map fun f =>
      dget s.dist f.tgt - dget s.dist f.src - w f).sum = -(wsum w c) := by
    rw [sum_map_sub (fun f => dget s.dist f.tgt - dget s.dist f.src) w c, htel, wsum]
    ring
  have hle : (c.map fun f =>
      dget s.dist f.tgt - dget s.dist f.src - w f).sum ≤ 0 := by
    apply list_sum_nonpos
    intro x hx
    obtain ⟨f, hf, rfl⟩ := List.mem_map.mp hx
    have := hnone f hf
    linarith
  rw [hsum] at hle
  linarith

/-- Adjacency of consecutive edges along a walk. -/
lemma walk_chain (g : Graph) {u v : Nat} {W : List Edge}
    (h : IsWalk g u v W) : List.Chain' (fun a b => a.tgt = b.src) W := by
  induction W generalizing u with
  | nil => trivial
  | cons e t ih =>
    obtain ⟨_, _, hrest⟩ := h
    cases t with
    | nil => simp
    | cons f t2 =>
      obtain ⟨hf1, hfsrc, hf2⟩ := hrest
      exact List.Chain'.cons hfsrc.symm (ih ⟨hf1, hfsrc, hf2⟩)

lemma isWalk_head_src (g : Graph) {u v : Nat} {W : List Edge}
    (h : IsWalk g u v W) (hne : W ≠ []) : W.head?.map Edge.src = some u := by
  cases W with
  | nil => exact absurd rfl hne
  | cons e t =>
    obtain ⟨_, hsrc, _⟩ := h
    simp [hsrc]

lemma isWalk_getLast_tgt (g : Graph) {u v : Nat} {W : List Edge}
    (h : IsWalk g u v W) (hne : W ≠ []) : W.getLast?.map Edge.tgt = some v := by
  induction W generalizing u with
  | nil => exact absurd rfl hne
  | cons e t ih =>
    obtain ⟨_, _, hrest⟩ := h
    cases t with
    | nil =>
      cases hrest
      rfl
    | cons f t2 =>
      rw [List.getLast?_cons_cons]
      exact ih hrest (by simp)

lemma tuples_mem (es : List Edge) :
    ∀ (k : Nat) (c : List Edge), c.length ≤ k → (∀ e ∈ c, e ∈ es) →
      c ∈ tuples es k := by
  intro k
  induction k with
  | zero =>
    intro c hlen _
    have : c = [] := List.length_eq_zero.mp (Nat.le_zero.mp hlen)
    subst this
    exact List.mem_singleton.mpr rfl
  | succ k ih =>
    intro c hlen hsub
    cases c with
    | nil => exact List.mem_cons_self _ _
    | cons e c' =>
      apply List.mem_cons_of_mem
      apply List.mem_bind.mpr
      refine ⟨e, hsub e (List.mem_cons_self e c'), ?_⟩
      apply List.mem_map_of_mem
      exact ih c' (by simpa using hlen) (fun f hf => hsub f (List.mem_cons_of_mem e hf))

lemma cycleRatios_mem (g : Graph) (om : ParametricAPI) (c : List Edge)
    (hlen : c.length ≤ g.n) (hsub : ∀ e ∈ c, e ∈ g.edges) :
    om.zero_cancel c ∈ cycleRatios g om := by
  unfold cycleRatios
  rw [List.mem_toFinset]
  exact List.mem_map_of_mem om.zero_cancel (tuples_mem g.edges g.n c hlen hsub)

/-- More fuel never changes a completed `howard` run. -/
lemma howardF_fuel_mono (g : Graph) (w : Edge → ℚ) :
    ∀ (f : Nat) (s : NCF) (X : Option (List Edge)),
      (howardF g w f s).1 = some X →
      ∀ f', f ≤ f' → howardF g w f' s = howardF g w f s := by
  intro f
  induction f with
  | zero =>
    intro s X h
    rw [show howardF g w 0 s = (none, s) from rfl] at h
    cases h
  | succ f ih =>
    intro s X h f' hle
    obtain ⟨f'', rfl⟩ : ∃ f'', f' = f'' + 1 := ⟨f' - 1, by omega⟩
    rw [howardF_succ] at h ⊢
    rw [howardF_succ]
    by_cases hch : (relax g w s).2 = true
    · rw [if_pos hch] at h ⊢
      rw [if_pos hch]
      cases hfc : find_cycle g.n (relax g w s).1 with
      | some vtx => simp only [hfc]
      | none =>
        simp only [hfc]
        rw [hfc] at h
        exact ih (relax g w s).1 X h f'' (by omega)
    · rw [if_neg hch] at h ⊢
      rw [if_neg hch]

lemma runTrF_fuel_mono (g : Graph) (om : ParametricAPI) (dist : List ℚ) :
    ∀ (of : Nat) (r : ℚ) (cyc : List Edge) (hf : Nat) (res : ℚ × List Edge × List ℚ),
      runTrF g om dist r cyc hf of = some res →
      ∀ hf', hf ≤ hf' → runTrF g om dist r cyc hf' of = some res := by
  intro of
  induction of with
  | zero => intro r cyc hf res h; cases h
  | succ of ih =>
    intro r cyc hf res h hf' hle
    unfold runTrF at h ⊢
    cases hh : (howard g (fun e => om.distance r e) (dist.map fun _ => 0) hf).1 with
    | none => rw [hh] at h; cases h
    | some X =>
      have hh' : (howard g (fun e => om.distance r e) (dist.map fun _ => 0) hf').1
          = some X := by
        unfold howard at hh ⊢
        rw [howardF_fuel_mono g _ hf _ X hh hf' hle]
        exact hh
      rw [hh] at h
      rw [hh']
      cases X with
      | none => exact h
      | some ci =>
        simp only at h ⊢
        by_cases hlt : om.zero_cancel ci < r
        · rw [if_pos hlt] at h ⊢
          cases hrec : runTrF g om dist (om.zero_cancel ci) ci hf of with
          | none => rw [hrec] at h; cases h
          | some res' =>
            rw [hrec] at h
            rw [ih _ _ hf res' hrec hf' hle]
            exact h
        · rw [if_neg hlt] at h ⊢
          exact h

/-- Each adopted ratio strictly decreases the current one, and is the
`zero_cancel` value of a genuine cycle of the graph. -/
lemma runTrF_props (g : Graph) (om : ParametricAPI) (dist : List ℚ)
    (hwf : g.Wf) (hdlen : dist.length = g.n) :
    ∀ (of : Nat) (r : ℚ) (cyc : List Edge) (hf : Nat) (r' : ℚ)
      (c' : List Edge) (tr : List ℚ),
      runTrF g om dist r cyc hf of = some (r', c', tr) →
      List.Chain' (· > ·) (r :: tr) ∧ ∀ x ∈ tr, x ∈ cycleRatios g om := by
  intro of
  induction of with
  | zero => intro r cyc hf r' c' tr h; cases h
  | succ of ih =>
    intro r cyc hf r' c' tr h
    unfold runTrF at h
    cases hh : (howard g (fun e => om.distance r e) (dist.map fun _ => 0) hf).1 with
    | none => rw [hh] at h; cases h
    | some X =>
      rw [hh] at h
      cases X with
      | none =>
        obtain ⟨rfl, rfl, rfl⟩ : r = r' ∧ cyc = c' ∧ ([] : List ℚ) = tr := by
          cases h; exact ⟨rfl, rfl, rfl⟩
        exact ⟨List.chain'_singleton r, by intro x hx; cases hx⟩
      | some ci =>
        simp only at h
        by_cases hlt : om.zero_cancel ci < r
        · rw [if_pos hlt] at h
          cases hrec : runTrF g om dist (om.zero_cancel ci) ci hf of with
          | none => rw [hrec] at h; cases h
          | some res' =>
            obtain ⟨r₁, c₁, tr₁⟩ := res'
            rw [hrec] at h
            obtain ⟨rfl, rfl, rfl⟩ : r₁ = r' ∧ c₁ = c' ∧
                om.zero_cancel ci :: tr₁ = tr := by
              cases h; exact ⟨rfl, rfl, rfl⟩
            obtain ⟨hchain, hmemS⟩ := ih _ _ hf _ _ _ hrec
            -- the found cycle has at most `n` edges over the edge pool
            have hmemri : om.zero_cancel ci ∈ cycleRatios g om := by
              have hzeros : (dist.map fun _ => (0 : ℚ)).length = g.n := by
                rw [List.length_map]; exact hdlen
              have hg0 : Good g (fun e => om.distance r e)
                  (dist.map fun _ => 0) ⟨dist.map fun _ => 0, fun _ => none⟩ :=
                good_init _ _ _ hzeros
              have hpair : howardF g (fun e => om.distance r e) hf
                  ⟨dist.map fun _ => 0, fun _ => none⟩ =
                  (some (some ci),
                    (howardF g (fun e => om.distance r e) hf
                      ⟨dist.map fun _ => 0, fun _ => none⟩).2) :=
                Prod.ext hh rfl
              obtain ⟨_, hlen, _, hedges, _, _, _⟩ :=
                howardF_some_sound g _ _ hwf hf _ hg0 ci _ hpair
              exact cycleRatios_mem g om ci hlen hedges
            refine ⟨?_, ?_⟩
            · exact List.Chain'.cons hlt hchain
            · intro x hx
              rcases List.mem_cons.mp hx with rfl | hx'
              · exact hmemri
              · exact hmemS x hx'
        · rw [if_neg hlt] at h
          obtain ⟨rfl, rfl, rfl⟩ : r = r' ∧ cyc = c' ∧ ([] : List ℚ) = tr := by
            cases h; exact ⟨rfl, rfl, rfl⟩
          exact ⟨List.chain'_singleton r, by intro x hx; cases hx⟩

lemma ratioFilter_card_lt (S : Finset ℚ) (r ri : ℚ) (hmem : ri ∈ S)
    (hlt : ri < r) :
    (S.filter (· < ri)).card < (S.filter (· < r)).card := by
  apply Finset.card_lt_card
  rw [Finset.ssubset_def]
  constructor
  · intro x hx
    rw [Finset.mem_filter] at hx ⊢
    exact ⟨hx.1, lt_trans hx.2 hlt⟩
  · intro hsub
    have hri : ri ∈ S.filter (· < r) := Finset.mem_filter.mpr ⟨hmem, hlt⟩
    have := hsub hri
    rw [Finset.mem_filter] at this
    exact absurd this.2 (lt_irrefl ri)

/-- The outer loop terminates: the adopted ratios strictly descend inside
a finite pool, so some fuel suffices. -/
lemma runTrF_total (g : Graph) (om : ParametricAPI) (dist : List ℚ)
    (hwf : g.Wf) (hdlen : dist.length = g.n) :
    ∀ (k : Nat) (r : ℚ) (cyc : List Edge),
      ((cycleRatios g om).filter (· < r)).card ≤ k →
      ∃ hf of res, runTrF g om dist r cyc hf of = some res := by
  have hzeros : (dist.map fun _ => (0 : ℚ)).length = g.n := by
    rw [List.length_map]; exact hdlen
  intro k
  induction k with
  | zero =>
    intro r cyc hcard
    by_cases hnc : hasNegCycle g (fun e => om.distance r e)
    · -- a cycle is found; it cannot tighten the ratio at measure zero
      obtain ⟨fuel, c, s', heq⟩ := howardF_fires g _ _ hwf
        ⟨dist.map fun _ => 0, fun _ => none⟩ (good_init _ _ _ hzeros) rfl hnc
      have hh : (howard g (fun e => om.distance r e)
          (dist.map fun _ => 0) fuel).1 = some (some c) := by
        unfold howard
        rw [heq]
      by_cases hlt : om.zero_cancel c < r
      · exfalso
        obtain ⟨_, hlen, _, hedges, _, _, _⟩ :=
          howardF_some_sound g _ _ hwf fuel _ (good_init _ _ _ hzeros) c s' heq
        have hmem : om.zero_cancel c ∈ (cycleRatios g om).filter (· < r) :=
          Finset.mem_filter.mpr ⟨cycleRatios_mem g om c hlen hedges, hlt⟩
        have := Finset.card_pos.mpr ⟨_, hmem⟩
        omega
      · refine ⟨fuel, 1, (r, cyc, []), ?_⟩
        unfold runTrF
        rw [hh]
        simp only
        rw [if_neg hlt]
    · refine ⟨g.n + 1, 1, (r, cyc, []), ?_⟩
      have hh : (howard g (fun e => om.distance r e)
          (dist.map fun _ => 0) (g.n + 1)).1 = some none := by
        unfold howard
        have := howardF_complete_none g _ (dist.map fun _ => 0) hwf
          ⟨dist.map fun _ => 0, fun _ => none⟩ (good_init _ _ _ hzeros) rfl hnc
          (g.n + 1) 0 (by omega) (by omega)
        exact this
      unfold runTrF
      rw [hh]
  | succ k ih =>
    intro r cyc hcard
    by_cases hnc : hasNegCycle g (fun e => om.distance r e)
    · obtain ⟨fuel, c, s', heq⟩ := howardF_fires g _ _ hwf
        ⟨dist.map fun _ => 0, fun _ => none⟩ (good_init _ _ _ hzeros) rfl hnc
      have hh : (howard g (fun e => om.distance r e)
          (dist.map fun _ => 0) fuel).1 = some (some c) := by
        unfold howard
        rw [heq]
      by_cases hlt : om.zero_cancel c < r
      · obtain ⟨_, hlen, _, hedges, _, _, _⟩ :=
          howardF_some_sound g _ _ hwf fuel _ (good_init _ _ _ hzeros) c s' heq
        have hmemS : om.zero_cancel c ∈ cycleRatios g om :=
          cycleRatios_mem g om c hlen hedges
        have hlt2 := ratioFilter_card_lt (cycleRatios g om) r
          (om.zero_cancel c) hmemS hlt
        obtain ⟨hf₁, of₁, res₁, hres₁⟩ := ih (om.zero_cancel c) c (by omega)
        refine ⟨max fuel hf₁, of₁ + 1, (res₁.1, res₁.2.1, om.zero_cancel c :: res₁.2.2), ?_⟩
        unfold runTrF
        have hh2 : (howard g (fun e => om.distance r e)
            (dist.map fun _ => 0) (max fuel hf₁)).1 = some (some c) := by
          unfold howard at hh ⊢
          rw [howardF_fuel_mono g _ fuel _ (some c) hh (max fuel hf₁)
            (Nat.le_max_left _ _)]
          exact hh
        rw [hh2]
        simp only
        rw [if_pos hlt]
        rw [runTrF_fuel_mono g om dist of₁ _ c hf₁ res₁ hres₁ (max fuel hf₁)
          (Nat.le_max_right _ _)]
      · refine ⟨fuel, 1, (r, cyc, []), ?_⟩
        unfold runTrF
        rw [hh]
        simp only
        rw [if_neg hlt]
    · refine ⟨g.n + 1, 1, (r, cyc, []), ?_⟩
      have hh : (howard g (fun e => om.distance r e)
          (dist.map fun _ => 0) (g.n + 1)).1 = some none := by
        unfold howard
        exact howardF_complete_none g _ (dist.map fun _ => 0) hwf
          ⟨dist.map fun _ => 0, fun _ => none⟩ (good_init _ _ _ hzeros) rfl hnc
          (g.n + 1) 0 (by omega) (by omega)
      unfold runTrF
      rw [hh]

lemma getD_set_eq' {α : Type} (d : List α) (x dflt : α) (i : Nat)
    (h : i < d.length) : (d.set i x).getD i dflt = x := by
  simp [List.getD, List.getElem?_set_self', h]

lemma getD_set_ne' {α : Type} (d : List α) (x dflt : α) (i j : Nat)
    (h : j ≠ i) : (d.set i x).getD j dflt = d.getD j dflt := by
  simp [List.getD, List.getElem?_set_ne (Ne.symm h)]

lemma bfRelaxEdge_dist_le (p : BFState × Bool) (e : Edge) (v : Nat) :
    dgetT (bfRelaxEdge p e).1.distance v ≤ dgetT p.1.distance v := by
  unfold bfRelaxEdge
  split
  · rename_i hlt
    by_cases hv : v = e.tgt
    · rw [hv]
      by_cases hlen : e.tgt < p.1.distance.length
      · unfold dgetT
        rw [getD_set_eq' _ _ _ _ hlen]
        exact le_of_lt hlt
      · have hset : p.1.distance.set e.tgt
            (dgetT p.1.distance e.src + (e.weight : WithTop ℚ)) = p.1.distance :=
          List.set_eq_of_length_le (Nat.le_of_not_lt hlen)
        simp only [dgetT] at hset ⊢
        rw [hset]
    · unfold dgetT
      rw [getD_set_ne' _ _ _ _ _ hv]
  · exact le_refl _

lemma bfRelaxEdge_len (p : BFState × Bool) (e : Edge) :
    (bfRelaxEdge p e).1.distance.length = p.1.distance.length ∧
    (bfRelaxEdge p e).1.predecessor.length = p.1.predecessor.length := by
  unfold bfRelaxEdge
  split <;> simp

lemma bfFold_dist_le (l : List Edge) (p : BFState × Bool) (v : Nat) :
    dgetT (l.foldl bfRelaxEdge p).1.distance v ≤ dgetT p.1.distance v := by
  induction l generalizing p with
  | nil => exact le_refl _
  | cons e t ih =>
    exact le_trans (ih (bfRelaxEdge p e)) (bfRelaxEdge_dist_le p e v)

lemma bfFold_len (l : List Edge) (p : BFState × Bool) :
    (l.foldl bfRelaxEdge p).1.distance.length = p.1.distance.length := by
  induction l generalizing p with
  | nil => rfl
  | cons e t ih => rw [List.foldl_cons, ih, (bfRelaxEdge_len p e).1]

lemma bfRelaxEdge_tgt_le (p : BFState × Bool) (e : Edge)
    (hlen : e.tgt < p.1.distance.length) :
    dgetT (bfRelaxEdge p e).1.distance e.tgt ≤
      dgetT p.1.distance e.src + (e.weight : WithTop ℚ) := by
  unfold bfRelaxEdge
  split
  · unfold dgetT
    rw [getD_set_eq' _ _ _ _ hlen]
  · rename_i h
    exact le_of_not_lt h

lemma bfFold_edge_bound (l : List Edge) (p : BFState × Bool)
    (hlen : ∀ e ∈ l, e.tgt < p.1.distance.length) :
    ∀ e ∈ l, dgetT (l.foldl bfRelaxEdge p).1.distance e.tgt ≤
      dgetT p.1.distance e.src + (e.weight : WithTop ℚ) := by
  induction l generalizing p with
  | nil => intro e he; cases he
  | cons f t ih =>
    intro e he
    rcases List.mem_cons.mp he with rfl | he
    · calc dgetT ((e :: t).foldl bfRelaxEdge p).1.distance e.tgt
          ≤ dgetT (bfRelaxEdge p e).1.distance e.tgt :=
            bfFold_dist_le t (bfRelaxEdge p e) e.tgt
        _ ≤ dgetT p.1.distance e.src + (e.weight : WithTop ℚ) :=
            bfRelaxEdge_tgt_le p e (hlen e (List.mem_cons_self e t))
    · have hlen' : ∀ e' ∈ t, e'.tgt < (bfRelaxEdge p f).1.distance.length := by
        intro e' he'
        rw [(bfRelaxEdge_len p f).1]
        exact hlen e' (List.mem_cons_of_mem f he')
      calc dgetT (t.foldl bfRelaxEdge (bfRelaxEdge p f)).1.distance e.tgt
          ≤ dgetT (bfRelaxEdge p f).1.distance e.src + (e.weight : WithTop ℚ) :=
            ih (bfRelaxEdge p f) hlen' e he
        _ ≤ dgetT p.1.distance e.src + (e.weight : WithTop ℚ) :=
            add_le_add_right (bfRelaxEdge_dist_le p f e.src) _

lemma bfRelaxEdge_flag_mono (p : BFState × Bool) (e : Edge)
    (hp : p.2 = true) : (bfRelaxEdge p e).2 = true := by
  unfold bfRelaxEdge
  split
  · rfl
  · exact hp

lemma bfFold_flag_mono (l : List Edge) (p : BFState × Bool)
    (hp : p.2 = true) : (l.foldl bfRelaxEdge p).2 = true := by
  induction l generalizing p with
  | nil => exact hp
  | cons f t ih =>
    rw [List.foldl_cons]
    exact ih _ (bfRelaxEdge_flag_mono p f hp)

lemma bfFold_false (l : List Edge) (p : BFState × Bool)
    (h : (l.foldl bfRelaxEdge p).2 = false) :
    l.foldl bfRelaxEdge p = p := by
  induction l generalizing p with
  | nil => rfl
  | cons e t ih =>
    rw [List.foldl_cons] at h ⊢
    by_cases hc : dgetT p.1.distance e.src + (e.weight : WithTop ℚ) <
        dgetT p.1.distance e.tgt
    · exfalso
      have hstep : (bfRelaxEdge p e).2 = true := by
        unfold bfRelaxEdge; rw [if_pos hc]
      rw [bfFold_flag_mono t _ hstep] at h
      cases h
    · have hstep : bfRelaxEdge p e = p := by
        unfold bfRelaxEdge; rw [if_neg hc]
      rw [hstep] at h ⊢
      exact ih p h

lemma bfPass_false_fixpoint (g : Graph) (s : BFState)
    (h : (bfPass g s).2 = false) :
    ∀ e ∈ g.edges, dgetT s.distance e.tgt ≤
      dgetT s.distance e.src + (e.weight : WithTop ℚ) := by
  intro e he
  by_contra hlt
  push_neg at hlt
  obtain ⟨l1, l2, hsplit⟩ := List.append_of_mem he
  unfold bfPass at h
  rw [hsplit, List.foldl_append, List.foldl_cons] at h
  have h1 : (l1.foldl bfRelaxEdge (s, false)).2 = false := by
    cases hb : (l1.foldl bfRelaxEdge (s, false)).2
    · rfl
    · exfalso
      have hstep : (bfRelaxEdge (l1.foldl bfRelaxEdge (s, false)) e).2 = true :=
        bfRelaxEdge_flag_mono _ e hb
      rw [bfFold_flag_mono l2 _ hstep] at h
      cases h
  rw [bfFold_false l1 _ h1] at h
  have hstep : (bfRelaxEdge (s, false) e).2 = true := by
    unfold bfRelaxEdge; rw [if_pos hlt]
  rw [bfFold_flag_mono l2 _ hstep] at h
  cases h

lemma bfPass_len (g : Graph) (s : BFState) :
    (bfPass g s).1.distance.length = s.distance.length :=
  bfFold_len g.edges (s, false)

lemma bfPass_dist_le (g : Graph) (s : BFState) (v : Nat) :
    dgetT (bfPass g s).1.distance v ≤ dgetT s.distance v :=
  bfFold_dist_le g.edges (s, false) v

lemma bfPass_edge_bound (g : Graph) (s : BFState)
    (hlen : ∀ e ∈ g.edges, e.tgt < s.distance.length) :
    ∀ e ∈ g.edges, dgetT (bfPass g s).1.distance e.tgt ≤
      dgetT s.distance e.src + (e.weight : WithTop ℚ) :=
  bfFold_edge_bound g.edges (s, false) hlen

lemma bfIter_len (g : Graph) (k : Nat) (s : BFState) :
    (bfIter g k s).distance.length = s.distance.length := by
  induction k generalizing s with
  | zero => rfl
  | succ k ih =>
    show (bfIter g k (bfPass g s).1).distance.length = _
    rw [ih, bfPass_len]

lemma bfIter_dist_le (g : Graph) (k : Nat) (s : BFState) (v : Nat) :
    dgetT (bfIter g k s).distance v ≤ dgetT s.distance v := by
  induction k generalizing s with
  | zero => exact le_refl _
  | succ k ih =>
    calc dgetT (bfIter g k (bfPass g s).1).distance v
        ≤ dgetT (bfPass g s).1.distance v := ih _
      _ ≤ dgetT s.distance v := bfPass_dist_le g s v

lemma bfIter_of_pass_false (g : Graph) (s : BFState)
    (h : (bfPass g s).2 = false) : ∀ k, bfIter g k s = s := by
  have hs : (bfPass g s).1 = s := by
    have := bfFold_false g.edges (s, false) h
    exact congrArg Prod.fst this
  intro k
  induction k with
  | zero => rfl
  | succ k ih =>
    show bfIter g k (bfPass g s).1 = s
    rw [hs]
    exact ih

/-- The early break of `bfLoop` only fires at a fixpoint, so the loop
computes exactly `k` plain passes. -/
lemma bfLoop_eq_bfIter (g : Graph) : ∀ (k : Nat) (s : BFState),
    bfLoop g k s = bfIter g k s := by
  intro k
  induction k with
  | zero => intro s; rfl
  | succ k ih =>
    intro s
    show (if (bfPass g s).2 then bfLoop g k (bfPass g s).1 else (bfPass g s).1) =
      bfIter g k (bfPass g s).1
    by_cases hch : (bfPass g s).2 = true
    · rw [if_pos hch]
      exact ih _
    · have hch' : (bfPass g s).2 = false := by
        cases hb : (bfPass g s).2
        · rfl
        · exact absurd hb hch
      rw [if_neg hch]
      have hs : (bfPass g s).1 = s :=
        congrArg Prod.fst (bfFold_false g.edges (s, false) hch')
      rw [hs]
      exact (bfIter_of_pass_false g s hch' k).symm

/-- After `k` baseline passes, the distance of `v` is bounded by any walk
into `v` of at most `k` edges. -/
lemma bfIter_upper (g : Graph) (hwf : g.Wf) :
    ∀ (k : Nat) (s : BFState), s.distance.length = g.n →
      ∀ (u v : Nat) (W : List Edge), IsWalk g u v W → W.length ≤ k →
        dgetT (bfIter g k s).distance v ≤
          dgetT s.distance u + ((wsum Edge.weight W : ℚ) : WithTop ℚ) := by
  intro k
  induction k with
  | zero =>
    intro s _ u v W hW hlen
    have : W = [] := List.length_eq_zero.mp (Nat.le_zero.mp hlen)
    subst this
    cases hW
    simp [bfIter, wsum_nil]
  | succ k ih =>
    intro s hslen u v W hW hlen
    cases W with
    | nil =>
      cases hW
      calc dgetT (bfIter g (k + 1) s).distance u
          ≤ dgetT s.distance u := bfIter_dist_le g (k + 1) s u
        _ ≤ dgetT s.distance u + ((wsum Edge.weight [] : ℚ) : WithTop ℚ) := by
            simp [wsum_nil]
    | cons e W' =>
      obtain ⟨hemem, hesrc, hrest⟩ := hW
      have hlen' : ∀ f ∈ g.edges, f.tgt < s.distance.length := by
        intro f hf
        rw [hslen]
        exact (hwf f hf).2
      have h1 : dgetT (bfPass g s).1.distance e.tgt ≤
          dgetT s.distance e.src + (e.weight : WithTop ℚ) :=
        bfPass_edge_bound g s hlen' e hemem
      have h2 := ih (bfPass g s).1 (by rw [bfPass_len]; exact hslen)
        e.tgt v W' hrest (by simpa using hlen)
      rw [hesrc] at h1
      show dgetT (bfIter g k (bfPass g s).1).distance v ≤ _
      calc dgetT (bfIter g k (bfPass g s).1).distance v
          ≤ dgetT (bfPass g s).1.distance e.tgt +
              ((wsum Edge.weight W' : ℚ) : WithTop ℚ) := h2
        _ ≤ (dgetT s.distance u + (e.weight : WithTop ℚ)) +
              ((wsum Edge.weight W' : ℚ) : WithTop ℚ) :=
            add_le_add_right h1 _
        _ = dgetT s.distance u +
              ((wsum Edge.weight (e :: W') : ℚ) : WithTop ℚ) := by
            rw [add_assoc, wsum_cons, ← WithTop.coe_add]

lemma achieves_relaxEdge (g : Graph) (src : Nat) (p : BFState × Bool)
    (e : Edge) (he : e ∈ g.edges) (hach : Achieves g src p.1.distance) :
    Achieves g src (bfRelaxEdge p e).1.distance := by
  unfold bfRelaxEdge
  split
  · rename_i hlt
    intro v
    by_cases hv : v = e.tgt
    · rw [hv]
      by_cases hrange : e.tgt < p.1.distance.length
      · right
        have hval : dgetT (p.1.distance.set e.tgt
            (dgetT p.1.distance e.src + (e.weight : WithTop ℚ))) e.tgt =
            dgetT p.1.distance e.src + (e.weight : WithTop ℚ) := by
          unfold dgetT
          exact getD_set_eq' _ _ _ _ hrange
        have hfin : dgetT p.1.distance e.src ≠ ⊤ := by
          intro htop
          rw [htop, top_add] at hlt
          exact not_top_lt hlt
        rcases hach e.src with htop | ⟨W, hW, hWval⟩
        · exact absurd htop hfin
        · refine ⟨W ++ [e], isWalk_snoc hW he rfl, ?_⟩
          show dgetT _ e.tgt = _
          rw [hval, hWval, wsum_append, wsum_cons, wsum_nil, WithTop.coe_add]
          ring_nf
      · have hset : p.1.distance.set e.tgt
            (dgetT p.1.distance e.src + (e.weight : WithTop ℚ)) = p.1.distance :=
          List.set_eq_of_length_le (Nat.le_of_not_lt hrange)
        show (dgetT (p.1.distance.set e.tgt _) e.tgt = ⊤) ∨ _
        rw [hset]
        exact hach e.tgt
    · have hne : dgetT (p.1.distance.set e.tgt
          (dgetT p.1.distance e.src + (e.weight : WithTop ℚ))) v =
          dgetT p.1.distance v := by
        unfold dgetT
        exact getD_set_ne' _ _ _ _ _ hv
      show (dgetT (p.1.distance.set e.tgt _) v = ⊤) ∨ _
      rw [hne]
      exact hach v
  · exact hach

lemma achieves_fold (g : Graph) (src : Nat) (l : List Edge)
    (hsub : ∀ e ∈ l, e ∈ g.edges) (p : BFState × Bool)
    (hach : Achieves g src p.1.distance) :
    Achieves g src (l.foldl bfRelaxEdge p).1.distance := by
  induction l generalizing p with
  | nil => exact hach
  | cons e t ih =>
    rw [List.foldl_cons]
    exact ih (fun f hf => hsub f (List.mem_cons_of_mem e hf)) _
      (achieves_relaxEdge g src p e (hsub e (List.mem_cons_self e t)) hach)

lemma achieves_bfIter (g : Graph) (src : Nat) (k : Nat) (s : BFState)
    (hach : Achieves g src s.distance) :
    Achieves g src (bfIter g k s).distance := by
  induction k generalizing s with
  | zero => exact hach
  | succ k ih =>
    exact ih _ (achieves_fold g src g.edges (fun _ h => h) (s, false) hach)

lemma achieves_bfInit (g : Graph) (src : Nat) (hsrc : src < g.n) :
    Achieves g src (bfInit g src).distance := by
  intro v
  by_cases hv : v = src
  · subst hv
    right
    refine ⟨[], rfl, ?_⟩
    show dgetT ((List.replicate g.n (⊤ : WithTop ℚ)).set v 0) v = _
    unfold dgetT
    rw [getD_set_eq' _ _ _ _ (by rw [List.length_replicate]; exact hsrc)]
    simp [wsum_nil]
  · left
    show dgetT ((List.replicate g.n (⊤ : WithTop ℚ)).set src 0) v = ⊤
    unfold dgetT
    rw [getD_set_ne' _ _ _ _ _ hv]
    by_cases hr : v < g.n
    · simp [List.getD, List.getElem?_replicate, hr]
    · simp [List.getD, List.getElem?_replicate, hr]

lemma bfInit_len (g : Graph) (src : Nat) :
    (bfInit g src).distance.length = g.n := by
  show ((List.replicate g.n (⊤ : WithTop ℚ)).set src 0).length = g.n
  rw [List.length_set, List.length_replicate]

lemma bfInit_src (g : Graph) (src : Nat) (hsrc : src < g.n) :
    dgetT (bfInit g src).distance src = 0 := by
  show dgetT ((List.replicate g.n (⊤ : WithTop ℚ)).set src 0) src = 0
  unfold dgetT
  rw [getD_set_eq' _ _ _ _ (by rw [List.length_replicate]; exact hsrc)]

/-- Without a reachable negative cycle, `g.n - 1` baseline passes reach a
relaxation fixpoint: no edge of the graph is still improvable. -/
lemma bf_final_fixpoint (g : Graph) (src : Nat) (hwf : g.Wf)
    (hsrc : src < g.n) (hnc : ¬ negCycleFrom g src) :
    ∀ e ∈ g.edges,
      ¬ (dgetT (bellman_ford_initialize_relax g src).distance e.src +
          (e.weight : WithTop ℚ) <
        dgetT (bellman_ford_initialize_relax g src).distance e.tgt) := by
  have hSdef : bellman_ford_initialize_relax g src =
      bfIter g (g.n - 1) (bfInit g src) := by
    unfold bellman_ford_initialize_relax
    exact bfLoop_eq_bfIter g (g.n - 1) (bfInit g src)
  intro e he hlt
  rw [hSdef] at hlt
  set S := bfIter g (g.n - 1) (bfInit g src) with hS
  have hfin : dgetT S.distance e.src ≠ ⊤ := by
    intro htop
    rw [htop, top_add] at hlt
    exact not_top_lt hlt
  have hach : Achieves g src S.distance :=
    achieves_bfIter g src _ _ (achieves_bfInit g src hsrc)
  rcases hach e.src with htop | ⟨W, hW, hWval⟩
  · exact hfin htop
  have hWe : IsWalk g src e.tgt (W ++ [e]) := isWalk_snoc hW he rfl
  have hcyc : ∀ z c, Reach g src z → c ≠ [] → IsWalk g z z c →
      0 ≤ wsum Edge.weight c := by
    intro z c hz hne hWz
    by_contra hneg
    push_neg at hneg
    exact hnc ⟨z, c, hne, hWz, hneg, hz⟩
  have hR : ∀ x f, f ∈ g.edges → f.src = x → Reach g src x →
      Reach g src f.tgt := by
    intro x f hf hfs ⟨V, hV⟩
    exact ⟨V ++ [f], isWalk_snoc hV hf hfs⟩
  obtain ⟨W', hW', hle, hnd, _⟩ := walk_reduce g Edge.weight (Reach g src)
    hR hcyc (W ++ [e]).length src e.tgt (W ++ [e]) (le_refl _) hWe ⟨[], rfl⟩
  have hshort : W'.length + 1 ≤ g.n :=
    nodup_walk_length g hwf src e.tgt W' hW' hsrc hnd
  have hupper := bfIter_upper g hwf (g.n - 1) (bfInit g src)
    (bfInit_len g src) src e.tgt W' hW' (by omega)
  rw [bfInit_src g src hsrc, zero_add, ← hS] at hupper
  have hWsum : wsum Edge.weight (W ++ [e]) = wsum Edge.weight W + e.weight := by
    rw [wsum_append, wsum_cons, wsum_nil]
    ring
  rw [hWsum] at hle
  have hstep : dgetT S.distance e.src + (e.weight : WithTop ℚ) =
      ((wsum Edge.weight W + e.weight : ℚ) : WithTop ℚ) := by
    rw [hWval, ← WithTop.coe_add]
  have hchain : dgetT S.distance e.tgt ≤
      dgetT S.distance e.src + (e.weight : WithTop ℚ) := by
    rw [hstep]
    calc dgetT S.distance e.tgt
        ≤ ((wsum Edge.weight W' : ℚ) : WithTop ℚ) := hupper
      _ ≤ ((wsum Edge.weight W + e.weight : ℚ) : WithTop ℚ) :=
          WithTop.coe_le_coe.mpr hle
  exact absurd hlt (not_lt_of_le hchain)

/-- If some edge fires during a fold of `relaxEdge`, a distance entry has
strictly decreased by the end of the fold. -/
lemma foldl_relax_strict (w : Edge → ℚ) :
    ∀ (l : List Edge) (p : NCF × Bool),
      (∀ e ∈ l, e.tgt < p.1.dist.length) →
      (l.foldl (relaxEdge w) p).2 = true →
      p.2 = true ∨ ∃ v, dget (l.foldl (relaxEdge w) p).1.dist v < dget p.1.dist v := by
  intro l
  induction l with
  | nil => intro p _ h; exact Or.inl h
  | cons e t ih =>
    intro p hlen h
    rw [List.foldl_cons] at h ⊢
    by_cases hc : dget p.1.dist e.src + w e < dget p.1.dist e.tgt
    · right
      refine ⟨e.tgt, ?_⟩
      have hmid : dget (relaxEdge w p e).1.dist e.tgt =
          dget p.1.dist e.src + w e := by
        unfold relaxEdge
        rw [if_pos hc]
        exact dget_set_eq _ (hlen e (List.mem_cons_self e t))
      calc dget (t.foldl (relaxEdge w) (relaxEdge w p e)).1.dist e.tgt
          ≤ dget (relaxEdge w p e).1.dist e.tgt :=
            foldl_relax_dist_le w t _ e.tgt
        _ = dget p.1.dist e.src + w e := hmid
        _ < dget p.1.dist e.tgt := hc
    · have hstep : relaxEdge w p e = p := by
        unfold relaxEdge
        rw [if_neg hc]
      rw [hstep] at h ⊢
      exact ih p (fun f hf => hlen f (List.mem_cons_of_mem e hf)) h

/-- The changed flag of `relax` is `true` exactly when the pass altered
the distance array. -/
lemma relax_flag_iff (g : Graph) (w : Edge → ℚ) (s : NCF) (hwf : g.Wf)
    (hlen : s.dist.length = g.n) :
    (relax g w s).2 = true ↔ (relax g w s).1.dist ≠ s.dist := by
  constructor
  · intro h
    have hsupp : ∀ e ∈ g.edges, e.tgt < (s, false).1.dist.length := by
      intro e he
      show e.tgt < s.dist.length
      rw [hlen]
      exact (hwf e he).2
    rcases foldl_relax_strict w g.edges (s, false) hsupp h with hfalse | ⟨v, hv⟩
    · cases hfalse
    · intro heq
      have hv' : dget (relax g w s).1.dist v < dget s.dist v := hv
      rw [heq] at hv'
      exact absurd hv' (lt_irrefl _)
  · intro h
    cases hb : (relax g w s).2
    · exfalso
      apply h
      have := foldl_relax_false w g.edges (s, false) hb
      show (g.edges.foldl (relaxEdge w) (s, false)).1.dist = s.dist
      rw [this]
    · rfl

/-- In a graph whose edges all go from a smaller to a larger node, walks
are monotone. -/
lemma walk_mono (g : Graph) (hmono : ∀ e ∈ g.edges, e.src < e.tgt) :
    ∀ (W : List Edge) (u v : Nat), IsWalk g u v W → u ≤ v := by
  intro W
  induction W with
  | nil => intro u v h; cases h; exact le_refl _
  | cons e t ih =>
    intro u v h
    obtain ⟨hemem, hesrc, hrest⟩ := h
    have h1 : u < e.tgt := hesrc ▸ hmono e hemem
    exact le_trans (le_of_lt h1) (ih e.tgt v hrest)

/-- Such a graph has no nonempty closed walk at all. -/
lemma mono_no_closed_walk (g : Graph) (hmono : ∀ e ∈ g.edges, e.src < e.tgt) :
    ∀ (u : Nat) (c : List Edge), c ≠ [] → ¬ IsWalk g u u c := by
  intro u c hne h
  cases c with
  | nil => exact hne rfl
  | cons e t =>
    obtain ⟨hemem, hesrc, hrest⟩ := h
    have h1 : u < e.tgt := hesrc ▸ hmono e hemem
    have h2 : e.tgt ≤ u := walk_mono g hmono t e.tgt u hrest
    omega

lemma mono_no_negCycle (g : Graph) (hmono : ∀ e ∈ g.edges, e.src < e.tgt)
    (w : Edge → ℚ) : ¬ hasNegCycle g w := by
  rintro ⟨u, c, hne, hW, _⟩
  exact mono_no_closed_walk g hmono u c hne hW

lemma mono_no_negCycleFrom (g : Graph) (hmono : ∀ e ∈ g.edges, e.src < e.tgt)
    (src : Nat) : ¬ negCycleFrom g src := by
  rintro ⟨z, c, hne, hW, _, _⟩
  exact mono_no_closed_walk g hmono z c hne hW

/-- A strictly decreasing list drawn from a finite set is no longer than
the set's cardinality. -/
lemma chain_gt_length_le (S : Finset ℚ) (tr : List ℚ)
    (hchain : List.Chain' (· > ·) tr) (hmem : ∀ x ∈ tr, x ∈ S) :
    tr.length ≤ S.card := by
  have hpair : tr.Pairwise (· > ·) := List.chain'_iff_pairwise.mp hchain
  have hnd : tr.Nodup := hpair.imp (fun h => ne_of_gt h)
  have hsub : tr.toFinset ⊆ S := by
    intro x hx
    exact hmem x (List.mem_toFinset.mp hx)
  calc tr.length = tr.toFinset.card := (List.toFinset_card_of_nodup hnd).symm
    _ ≤ S.card := Finset.card_le_card hsub

/-- Predecessor-order adjacency of a reversed closed walk: each edge's
source is the following edge's target, and the list closes up with the
source of the last edge equal to the target of the first. -/
lemma predOrder_of_reverse_walk (g : Graph) (c : List Edge) (hne : c ≠ [])
    (z : Nat) (hz : IsWalk g z z c.reverse) :
    List.Chain' (fun a b => b.tgt = a.src) c ∧
      c.getLast?.map Edge.src = c.head?.map Edge.tgt := by
  have hrne : c.reverse ≠ [] := by
    intro h
    exact hne (by simpa using congrArg List.reverse h)
  have hchainrev : List.Chain' (fun a b => a.tgt = b.src) c.reverse :=
    walk_chain g hz
  have hchain : List.Chain' (fun a b => b.tgt = a.src) c := by
    have := List.chain'_reverse.mp hchainrev
    exact this
  have hhead := isWalk_head_src g hz hrne
  have hlast := isWalk_getLast_tgt g hz hrne
  rw [List.head?_reverse] at hhead
  rw [List.getLast?_reverse] at hlast
  refine ⟨hchain, ?_⟩
  rw [hhead, hlast]

/-- Reachability from a fixed source is closed under following edges. -/
lemma reach_snoc (g : Graph) (src : Nat) :
    ∀ (x : Nat) (f : Edge), f ∈ g.edges → f.src = x → Reach g src x →
      Reach g src f.tgt := by
  rintro x f hf hfs ⟨V, hV⟩
  exact ⟨V ++ [f], isWalk_snoc hV hf hfs⟩

/-- Without a reachable negative cycle, closed walks at reachable nodes
are nonnegative. -/
lemma noNegFrom_nonneg (g : Graph) (src : Nat) (hnc : ¬ negCycleFrom g src) :
    ∀ (z : Nat) (c : List Edge), Reach g src z → c ≠ [] → IsWalk g z z c →
      0 ≤ wsum Edge.weight c := by
  intro z c hz hne hWz
  by_contra hneg
  push_neg at hneg
  exact hnc ⟨z, c, hne, hWz, hneg, hz⟩

/-- The final ratio of the instrumented loop never exceeds the initial
one. -/
lemma runTrF_ratio_le (g : Graph) (om : ParametricAPI) (dist : List ℚ) :
    ∀ (of : Nat) (r : ℚ) (cyc : List Edge) (hf : Nat) (r' : ℚ)
      (c' : List Edge) (tr : List ℚ),
      runTrF g om dist r cyc hf of = some (r', c', tr) → r' ≤ r := by
  intro of
  induction of with
  | zero => intro r cyc hf r' c' tr h; cases h
  | succ of ih =>
    intro r cyc hf r' c' tr h
    unfold runTrF at h
    cases hh : (howard g (fun e => om.distance r e) (dist.map fun _ => 0) hf).1 with
    | none => rw [hh] at h; cases h
    | some X =>
      rw [hh] at h
      cases X with
      | none =>
        obtain ⟨rfl, rfl, rfl⟩ : r = r' ∧ cyc = c' ∧ ([] : List ℚ) = tr := by
          cases h; exact ⟨rfl, rfl, rfl⟩
        exact le_refl r
      | some ci =>
        simp only at h
        by_cases hlt : om.zero_cancel ci < r
        · rw [if_pos hlt] at h
          cases hrec : runTrF g om dist (om.zero_cancel ci) ci hf of with
          | none => rw [hrec] at h; cases h
          | some res' =>
            obtain ⟨r₁, c₁, tr₁⟩ := res'
            rw [hrec] at h
            obtain ⟨rfl, rfl, rfl⟩ : r₁ = r' ∧ c₁ = c' ∧
                om.zero_cancel ci :: tr₁ = tr := by
              cases h; exact ⟨rfl, rfl, rfl⟩
            exact le_trans (ih _ _ hf _ _ _ hrec) (le_of_lt hlt)
        · rw [if_neg hlt] at h
          obtain ⟨rfl, rfl, rfl⟩ : r = r' ∧ cyc = c' ∧ ([] : List ℚ) = tr := by
            cases h; exact ⟨rfl, rfl, rfl⟩
          exact le_refl r

/-! ### The claims -/
/-- C1: for every graph, weight function, and starting distance array of
the documented shape, `howard` returns `None` if and only if the graph
has no cycle of strictly negative total weight under that weight
function; when it returns `Some`, the returned edge list is a nonempty
cycle (a closed walk when read backwards) of strictly negative total
weight. -/
theorem howard_iff_negCycle (g : Graph) (w : Edge → ℚ) (d0 : List ℚ)
    (hwf : g.Wf) (hdlen : d0.length = g.n) :
    ∃ fuel r s', howard g w d0 fuel = (some r, s') ∧
      (r = none ↔ ¬ hasNegCycle g w) ∧
      (∀ c, r = some c →
        c ≠ [] ∧ (∃ z, IsWalk g z z c.reverse) ∧ wsum w c < 0) := by
  have hg0 : Good g w d0 ⟨d0, fun _ => none⟩ := good_init g w d0 hdlen
  by_cases hnc : hasNegCycle g w
  · obtain ⟨fuel, c, s', heq⟩ :=
      howardF_fires g w d0 hwf ⟨d0, fun _ => none⟩ hg0 rfl hnc
    refine ⟨fuel, some c, s', heq, ?_, ?_⟩
    · constructor
      · intro h; cases h
      · intro h; exact absurd hnc h
    · intro c' hc'
      obtain rfl : c = c' := by cases hc'; rfl
      obtain ⟨hne, _, hwalk, _, hneg, _, _⟩ :=
        howardF_some_sound g w d0 hwf fuel _ hg0 c s' heq
      exact ⟨hne, hwalk, hneg⟩
  · have h1 : (howardF g w (g.n + 1) ⟨d0, fun _ => none⟩).1 = some none :=
      howardF_complete_none g w d0 hwf ⟨d0, fun _ => none⟩ hg0 rfl hnc
        (g.n + 1) 0 (by omega) (by omega)
    refine ⟨g.n + 1, none, (howardF g w (g.n + 1) ⟨d0, fun _ => none⟩).2,
      Prod.ext h1 rfl, ?_, ?_⟩
    · exact ⟨fun _ => hnc, fun _ => rfl⟩
    · intro c hc; cases hc

/-- Witness for C1 at the negative triangle. -/
theorem howard_iff_negCycle_witness :
    Graph.Wf gNeg ∧ ([0, 0, 0] : List ℚ).length = gNeg.n ∧
    (∃ fuel r s', howard gNeg Edge.weight [0, 0, 0] fuel = (some r, s') ∧
      (r = none ↔ ¬ hasNegCycle gNeg Edge.weight) ∧
      (∀ c, r = some c →
        c ≠ [] ∧ (∃ z, IsWalk gNeg z z c.reverse) ∧ wsum Edge.weight c < 0)) :=
  ⟨by decide, rfl,
    howard_iff_negCycle gNeg Edge.weight [0, 0, 0] (by decide) rfl⟩

/-- C2: the parametric solver terminates; the sequence of adopted ratios
strictly decreases (a candidate is adopted only when strictly smaller,
otherwise the loop stops), every adopted value lies in the finite pool of
cycle-ratio values of the graph, and the number of adoptions is bounded
by that pool's size. -/
theorem parametric_run_terminates (g : Graph) (om : ParametricAPI)
    (dist : List ℚ) (hwf : g.Wf) (hdlen : dist.length = g.n) :
    (∀ (of : Nat) (r : ℚ) (cyc : List Edge) (hf : Nat) (r' : ℚ)
        (c' : List Edge) (tr : List ℚ),
        runTrF g om dist r cyc hf of = some (r', c', tr) →
        List.Chain' (· > ·) (r :: tr) ∧ (∀ x ∈ tr, x ∈ cycleRatios g om) ∧
        tr.length ≤ (cycleRatios g om).card) ∧
    (∀ (r : ℚ) (cyc : List Edge),
      ∃ hf of res, runTrF g om dist r cyc hf of = some res) := by
  constructor
  · intro of r cyc hf r' c' tr h
    obtain ⟨hchain, hmem⟩ := runTrF_props g om dist hwf hdlen of r cyc hf r' c' tr h
    exact ⟨hchain, hmem, chain_gt_length_le _ tr hchain.tail hmem⟩
  · intro r cyc
    exact runTrF_total g om dist hwf hdlen
      ((cycleRatios g om).filter (· < r)).card r cyc (le_refl _)

/-- Witness for C2 at the negative triangle with a concrete policy. -/
theorem parametric_run_terminates_witness :
    Graph.Wf gNeg ∧ ([0, 0, 0] : List ℚ).length = gNeg.n ∧
    ((∀ (of : Nat) (r : ℚ) (cyc : List Edge) (hf : Nat) (r' : ℚ)
        (c' : List Edge) (tr : List ℚ),
        runTrF gNeg omW [0, 0, 0] r cyc hf of = some (r', c', tr) →
        List.Chain' (· > ·) (r :: tr) ∧
        (∀ x ∈ tr, x ∈ cycleRatios gNeg omW) ∧
        tr.length ≤ (cycleRatios gNeg omW).card) ∧
    (∀ (r : ℚ) (cyc : List Edge),
      ∃ hf of res, runTrF gNeg omW [0, 0, 0] r cyc hf of = some res)) :=
  ⟨by decide, rfl, parametric_run_terminates gNeg omW [0, 0, 0] (by decide) rfl⟩

/-- C3: whenever the loop of `howard` detects a predecessor cycle (in any
state satisfying the run's invariant), walking that cycle once finds an
edge that still violates the relaxation inequality under the current
distance array, so the `is_negative` verification returns `true` and the
assertion guarding the returned cycle never aborts. -/
theorem is_negative_check_passes (g : Graph) (w : Edge → ℚ) (d0 : List ℚ)
    (hwf : g.Wf) (s : NCF) (hg : Good g w d0 s) (vtx : Nat)
    (hfc : find_cycle g.n s = some vtx) :
    is_negative g.n s w vtx = true ∧
    ∃ e ∈ cycle_list g.n s vtx,
      dget s.dist e.src + w e < dget s.dist e.tgt := by
  have hoc := find_cycle_sound g.n s vtx hfc
  obtain ⟨hne, hlen, hwalk, harr, hedges, hneg⟩ := cycle_list_spec hwf hg vtx hoc
  obtain ⟨e, hec, hviol⟩ := neg_predCycle_violated g w d0 s hg _ hne harr
    ⟨vtx, hwalk⟩ hneg
  have hshape : ∀ v u e, s.pred v = some (u, e) → e.src = u ∧ e.tgt = v := by
    intro v u e h
    obtain ⟨_, h2, h3, _⟩ := hg.inv v u e h
    exact ⟨h2, h3⟩
  exact ⟨is_negative_aux_of_mem s w vtx hshape (g.n + 1) vtx e hec hviol,
    e, hec, hviol⟩

/-- Witness for C3 after the triangle's first relaxation pass. -/
theorem is_negative_check_passes_witness :
    find_cycle gNeg.n sW = some 0 ∧
    (is_negative gNeg.n sW Edge.weight 0 = true ∧
     ∃ e ∈ cycle_list gNeg.n sW 0,
       dget sW.dist e.src + Edge.weight e < dget sW.dist e.tgt) :=
  ⟨by with_unfolding_all rfl,
    is_negative_check_passes gNeg Edge.weight [0, 0, 0] (by decide) sW
      (good_relax gNeg Edge.weight [0, 0, 0] (by decide)
        ⟨[0, 0, 0], fun _ => none⟩ (good_init gNeg Edge.weight [0, 0, 0] rfl))
      0 (by with_unfolding_all rfl)⟩

/-- C4: for every graph with no negative cycle reachable from the source,
`bellman_ford` returns `Ok`, the source's distance is `0`, every edge is
relaxed at the returned distances, and every node reachable from the
source has its distance achieved by an actual path from the source. -/
theorem bellman_ford_correct (g : Graph) (src : Nat) (hwf : g.Wf)
    (hsrc : src < g.n) (hnc : ¬ negCycleFrom g src) :
    ∃ d p, bellman_ford g src = BFResult.ok d p ∧
      dgetT d src = 0 ∧
      (∀ e ∈ g.edges, dgetT d e.tgt ≤ dgetT d e.src + (e.weight : WithTop ℚ)) ∧
      (∀ v, Reach g src v →
        ∃ W, IsWalk g src v W ∧
          dgetT d v = ((wsum Edge.weight W : ℚ) : WithTop ℚ)) := by
  have hfix := bf_final_fixpoint g src hwf hsrc hnc
  set S := bellman_ford_initialize_relax g src with hSdef
  have hSiter : S = bfIter g (g.n - 1) (bfInit g src) := by
    rw [hSdef]
    unfold bellman_ford_initialize_relax
    exact bfLoop_eq_bfIter g _ _
  have hany : (g.edges.any fun e =>
      decide (dgetT S.distance e.src + (e.weight : WithTop ℚ) <
        dgetT S.distance e.tgt)) = false := by
    cases hb : (g.edges.any fun e =>
        decide (dgetT S.distance e.src + (e.weight : WithTop ℚ) <
          dgetT S.distance e.tgt)) with
    | false => rfl
    | true =>
      exfalso
      obtain ⟨e, he, hdec⟩ := List.any_eq_true.mp hb
      exact hfix e he (of_decide_eq_true hdec)
  have hbf : bellman_ford g src = BFResult.ok S.distance S.predecessor := by
    show (if (g.edges.any fun e =>
        decide (dgetT S.distance e.src + (e.weight : WithTop ℚ) <
          dgetT S.distance e.tgt))
      then BFResult.err else BFResult.ok S.distance S.predecessor) = _
    rw [hany]
    rfl
  have hach : Achieves g src S.distance := by
    rw [hSiter]
    exact achieves_bfIter g src _ _ (achieves_bfInit g src hsrc)
  refine ⟨S.distance, S.predecessor, hbf, ?_, ?_, ?_⟩
  · -- the source's distance is exactly zero
    have hle : dgetT S.distance src ≤ 0 := by
      rw [hSiter]
      have h1 := bfIter_dist_le g (g.n - 1) (bfInit g src) src
      rwa [bfInit_src g src hsrc] at h1
    have hge : (0 : WithTop ℚ) ≤ dgetT S.distance src := by
      rcases hach src with htop | ⟨W, hW, hval⟩
      · rw [htop]; exact le_top
      · rw [hval]
        by_cases hWnil : W = []
        · subst hWnil
          rw [wsum_nil]
          exact le_refl _
        · have h0 : 0 ≤ wsum Edge.weight W :=
            noNegFrom_nonneg g src hnc src W ⟨[], rfl⟩ hWnil hW
          calc (0 : WithTop ℚ) = ((0 : ℚ) : WithTop ℚ) := rfl
            _ ≤ ((wsum Edge.weight W : ℚ) : WithTop ℚ) := WithTop.coe_le_coe.mpr h0
    exact le_antisymm hle hge
  · intro e he
    exact not_lt.mp (hfix e he)
  · intro v ⟨W, hW⟩
    obtain ⟨W', hW', hle, hnd, _⟩ := walk_reduce g Edge.weight (Reach g src)
      (reach_snoc g src) (noNegFrom_nonneg g src hnc) W.length src v W
      (le_refl _) hW ⟨[], rfl⟩
    have hshort : W'.length + 1 ≤ g.n :=
      nodup_walk_length g hwf src v W' hW' hsrc hnd
    have hupper := bfIter_upper g hwf (g.n - 1) (bfInit g src)
      (bfInit_len g src) src v W' hW' (by omega)
    rw [bfInit_src g src hsrc, zero_add, ← hSiter] at hupper
    have hfin : dgetT S.distance v ≠ ⊤ := by
      intro htop
      rw [htop] at hupper
      exact absurd (top_le_iff.mp hupper) (WithTop.coe_ne_top)
    rcases hach v with htop | ⟨W'', hW'', hval⟩
    · exact absurd htop hfin
    · exact ⟨W'', hW'', hval⟩

/-- Witness for C4 at the specification's two-edge scenario. -/
theorem bellman_ford_correct_witness :
    Graph.Wf g6 ∧ 0 < g6.n ∧ ¬ negCycleFrom g6 0 ∧
    (∃ d p, bellman_ford g6 0 = BFResult.ok d p ∧
      dgetT d 0 = 0 ∧
      (∀ e ∈ g6.edges,
        dgetT d e.tgt ≤ dgetT d e.src + (e.weight : WithTop ℚ)) ∧
      (∀ v, Reach g6 0 v →
        ∃ W, IsWalk g6 0 v W ∧
          dgetT d v = ((wsum Edge.weight W : ℚ) : WithTop ℚ))) :=
  ⟨by decide, by decide, mono_no_negCycleFrom g6 (by decide) 0,
    bellman_ford_correct g6 0 (by decide) (by decide)
      (mono_no_negCycleFrom g6 (by decide) 0)⟩

/-- C5 (code bug): on the graph `g4` the negative cycle `1 → 2 → 1` is
reachable from source 3, and `bellman_ford` duly reports the
distinguished error; but `find_negative_cycle`, instead of returning the
promised nonempty negative closed walk, panics — its reconstruction walk
`predecessor[ix(node)].unwrap()` reaches the source, whose predecessor
entry is `None`. -/
theorem find_negative_cycle_panics :
    negCycleFrom g4 3 ∧
    bellman_ford g4 3 = BFResult.err ∧
    find_negative_cycle g4 3 10 = FncResult.panicked := by
  refine ⟨⟨1, [⟨1, 2, 0⟩, ⟨2, 1, -1⟩], by simp, ?_, by norm_num [wsum],
      ⟨[⟨3, 1, 0⟩], by simp [g4], rfl, rfl⟩⟩, ?_, ?_⟩
  · exact ⟨by simp [g4], rfl, by simp [g4], rfl, rfl⟩
  · with_unfolding_all rfl
  · with_unfolding_all rfl

/-- C6: when the transformed graph under the initial ratio has no
negative cycle, the parametric solver returns the ratio unchanged and an
empty witness cycle. -/
theorem parametric_run_no_cycle (g : Graph) (om : ParametricAPI)
    (dist : List ℚ) (r : ℚ) (hwf : g.Wf) (hdlen : dist.length = g.n)
    (hnc : ¬ hasNegCycle g (fun e => om.distance r e)) :
    ∀ of, 0 < of → runP g om dist r (g.n + 1) of = some (r, []) := by
  intro of hof
  obtain ⟨of', rfl⟩ : ∃ of', of = of' + 1 := ⟨of - 1, by omega⟩
  have hzeros : (dist.map fun _ => (0 : ℚ)).length = g.n := by
    rw [List.length_map]; exact hdlen
  have hh : (howard g (fun e => om.distance r e)
      (dist.map fun _ => 0) (g.n + 1)).1 = some none :=
    howardF_complete_none g _ (dist.map fun _ => 0) hwf
      ⟨dist.map fun _ => 0, fun _ => none⟩ (good_init _ _ _ hzeros) rfl hnc
      (g.n + 1) 0 (by omega) (by omega)
  have hred : runTrF g om dist r [] (g.n + 1) (of' + 1) = some (r, [], []) := by
    unfold runTrF
    rw [hh]
  unfold runP
  rw [hred]
  rfl

/-- Witness for C6 at the single-edge graph, which has no cycle at all. -/
theorem parametric_run_no_cycle_witness :
    Graph.Wf g1 ∧ ([0, 0] : List ℚ).length = g1.n ∧
    ¬ hasNegCycle g1 (fun e => omW.distance 7 e) ∧ 0 < 1 ∧
    runP g1 omW [0, 0] 7 (g1.n + 1) 1 = some (7, []) :=
  ⟨by decide, rfl, mono_no_negCycle g1 (by decide) _, by decide,
    parametric_run_no_cycle g1 omW [0, 0] 7 (by decide) rfl
      (mono_no_negCycle g1 (by decide) _) 1 (by decide)⟩

/-- C7: `relax` is one full pass over the graph's edge list; each edge
step overwrites `dist[tgt]` with `dist[src] + w` and records the
predecessor arrow exactly when `dist[src] + w < dist[tgt]` and leaves the
state untouched otherwise; and the returned flag is `true` if and only if
the pass changed the distance array. -/
theorem relax_pass_spec (g : Graph) (w : Edge → ℚ) (s : NCF) (hwf : g.Wf)
    (hlen : s.dist.length = g.n) :
    (∀ (p : NCF × Bool) (e : Edge),
      (dget p.1.dist e.src + w e < dget p.1.dist e.tgt →
        (relaxEdge w p e).1.dist =
          p.1.dist.set e.tgt (dget p.1.dist e.src + w e) ∧
        (relaxEdge w p e).1.pred e.tgt = some (e.src, e) ∧
        (relaxEdge w p e).2 = true) ∧
      (¬ dget p.1.dist e.src + w e < dget p.1.dist e.tgt →
        relaxEdge w p e = p)) ∧
    (relax g w s = g.edges.foldl (relaxEdge w) (s, false)) ∧
    ((relax g w s).2 = true ↔ (relax g w s).1.dist ≠ s.dist) := by
  refine ⟨?_, rfl, relax_flag_iff g w s hwf hlen⟩
  intro p e
  constructor
  · intro h
    unfold relaxEdge
    rw [if_pos h]
    exact ⟨rfl, by simp, rfl⟩
  · intro h
    unfold relaxEdge
    rw [if_neg h]

/-- Witness for C7 at the triangle's initial state. -/
theorem relax_pass_spec_witness :
    Graph.Wf gNeg ∧ (NCF.mk [0, 0, 0] (fun _ => none)).dist.length = gNeg.n ∧
    ((∀ (p : NCF × Bool) (e : Edge),
      (dget p.1.dist e.src + Edge.weight e < dget p.1.dist e.tgt →
        (relaxEdge Edge.weight p e).1.dist =
          p.1.dist.set e.tgt (dget p.1.dist e.src + Edge.weight e) ∧
        (relaxEdge Edge.weight p e).1.pred e.tgt = some (e.src, e) ∧
        (relaxEdge Edge.weight p e).2 = true) ∧
      (¬ dget p.1.dist e.src + Edge.weight e < dget p.1.dist e.tgt →
        relaxEdge Edge.weight p e = p)) ∧
    (relax gNeg Edge.weight ⟨[0, 0, 0], fun _ => none⟩ =
      gNeg.edges.foldl (relaxEdge Edge.weight)
        (⟨[0, 0, 0], fun _ => none⟩, false)) ∧
    ((relax gNeg Edge.weight ⟨[0, 0, 0], fun _ => none⟩).2 = true ↔
      (relax gNeg Edge.weight ⟨[0, 0, 0], fun _ => none⟩).1.dist ≠ [0, 0, 0])) :=
  ⟨by decide, rfl,
    relax_pass_spec gNeg Edge.weight ⟨[0, 0, 0], fun _ => none⟩ (by decide) rfl⟩

/-- C8: on a functional predecessor map supported below `n`, `find_cycle`
only ever reports nodes genuinely lying on a predecessor cycle (a chain
merging into an already-explored acyclic prefix is never reported), it
reports some node whenever a cycle exists, and it returns `None` on an
acyclic map. -/
theorem find_cycle_spec (n : Nat) (s : NCF)
    (hsupp : ∀ x y, predPi s x = some y → y < n) :
    (∀ u, find_cycle n s = some u → OnCycle (predPi s) u) ∧
    ((∃ v, OnCycle (predPi s) v) → ∃ u, find_cycle n s = some u) ∧
    ((∀ v, ¬ OnCycle (predPi s) v) → find_cycle n s = none) := by
  refine ⟨fun u h => find_cycle_sound n s u h, ?_, ?_⟩
  · rintro ⟨v, hv⟩
    exact find_cycle_complete n s hsupp v hv
  · intro hac
    cases hfc : find_cycle n s with
    | none => rfl
    | some u => exact absurd (find_cycle_sound n s u hfc) (hac u)

/-- Witness for C8 on the triangle state after one pass. -/
theorem find_cycle_spec_witness :
    (∀ x y, predPi sW x = some y → y < gNeg.n) ∧
    ((∀ u, find_cycle gNeg.n sW = some u → OnCycle (predPi sW) u) ∧
    ((∃ v, OnCycle (predPi sW) v) → ∃ u, find_cycle gNeg.n sW = some u) ∧
    ((∀ v, ¬ OnCycle (predPi sW) v) → find_cycle gNeg.n sW = none)) := by
  have hsupp : ∀ x y, predPi sW x = some y → y < gNeg.n :=
    good_hsupp (by decide)
      (good_relax gNeg Edge.weight [0, 0, 0] (by decide)
        ⟨[0, 0, 0], fun _ => none⟩ (good_init gNeg Edge.weight [0, 0, 0] rfl))
  exact ⟨hsupp, find_cycle_spec gNeg.n sW hsupp⟩

/-- C9 (amended): the witness list returned by `howard` (built by
`cycle_list`) is a nonempty closed walk in predecessor order: the source
of each edge is the target of the *next* edge, and the list closes with
the source of the last edge equal to the target of the first.  The
specification's forward orientation (target of each edge equal to the
source of the next) holds of the reversed list, not of the returned
one. -/
theorem cycle_list_pred_order (g : Graph) (w : Edge → ℚ) (d0 : List ℚ)
    (hwf : g.Wf) (hdlen : d0.length = g.n) (fuel : Nat) (c : List Edge)
    (h : (howard g w d0 fuel).1 = some (some c)) :
    c ≠ [] ∧ List.Chain' (fun a b => b.tgt = a.src) c ∧
      c.getLast?.map Edge.src = c.head?.map Edge.tgt := by
  have hg0 : Good g w d0 ⟨d0, fun _ => none⟩ := good_init g w d0 hdlen
  have hpair : howard g w d0 fuel =
      (some (some c), (howard g w d0 fuel).2) := Prod.ext h rfl
  obtain ⟨hne, _, ⟨z, hz⟩, _, _, _, _⟩ :=
    howardF_some_sound g w d0 hwf fuel _ hg0 c _ hpair
  obtain ⟨hchain, hclose⟩ := predOrder_of_reverse_walk g c hne z hz
  exact ⟨hne, hchain, hclose⟩

/-- Witness for C9's amended statement at the triangle. -/
theorem cycle_list_pred_order_witness :
    Graph.Wf gNeg ∧ ([0, 0, 0] : List ℚ).length = gNeg.n ∧
    (howard gNeg Edge.weight [0, 0, 0] 4).1 = some (some cex) ∧
    (cex ≠ [] ∧ List.Chain' (fun a b => b.tgt = a.src) cex ∧
      cex.getLast?.map Edge.src = cex.head?.map Edge.tgt) :=
  ⟨by decide, rfl, by with_unfolding_all rfl,
    cycle_list_pred_order gNeg Edge.weight [0, 0, 0] (by decide) rfl 4 cex
      (by with_unfolding_all rfl)⟩

/-- Counterexample to C9 as stated: on the negative triangle, `howard`
returns the list `[2 → 0, 1 → 2, 0 → 1]`, whose consecutive edges do not
satisfy "target of `e_i` equals source of `e_(i+1)`" (the target of the
first edge is 0, the source of the second is 1). -/
theorem cycle_list_forward_counterexample :
    (howard gNeg Edge.weight [0, 0, 0] 4).1 = some (some cex) ∧
    ¬ ForwardClosedSpec cex := by
  refine ⟨by with_unfolding_all rfl, ?_⟩
  rintro ⟨-, hchain, -⟩
  simp [cex, List.chain'_cons] at hchain

/-- C10: the parametric solver's final ratio never exceeds its initial
value, for every graph, policy object, and fuel: the ratio is only ever
overwritten with a strictly smaller candidate. -/
theorem run_ratio_monotone (g : Graph) (om : ParametricAPI) (dist : List ℚ)
    (r : ℚ) (hf of : Nat) (r' : ℚ) (c' : List Edge)
    (h : runP g om dist r hf of = some (r', c')) : r' ≤ r := by
  unfold runP at h
  cases hres : runTrF g om dist r [] hf of with
  | none => rw [hres] at h; cases h
  | some res =>
    obtain ⟨r₁, c₁, tr₁⟩ := res
    rw [hres] at h
    simp only [Option.map_some', Option.some.injEq, Prod.mk.injEq] at h
    obtain ⟨rfl, -⟩ := h
    exact runTrF_ratio_le g om dist of r [] hf r₁ c₁ tr₁ hres

/-- Witness for C10 on the single-edge graph. -/
theorem run_ratio_monotone_witness :
    runP g1 omW [0, 0] 0 3 1 = some (0, []) ∧ (0 : ℚ) ≤ 0 :=
  ⟨by with_unfolding_all rfl,
    run_ratio_monotone g1 omW [0, 0] 0 3 1 0 [] (by with_unfolding_all rfl)⟩

end DigraphX
